import Mathlib

/-!
Shallow embedding of `src/protocol/halo2/verifier/shplonk.rs` (a SHPLONK-style
multi-open verifier core) together with the external contracts it consumes
(loader, transcript, MSM, expression), which are modelled from the spec where
their source is not part of this repository.

Conventions of the embedding:
* machine integers become `Nat`/`Int`; `usize` subtraction that can underflow
  is modelled explicitly;
* Rust panics (`unwrap` on `None`, index out of bounds, `usize` underflow) are
  modelled by returning `none` from an `Option`-valued function;
* fallible Rust code returning `Result<_, Error>` becomes `Except Error _`;
* `HashMap`s that are only read through `get` become association lists whose
  lookup returns the entry of the *last* insertion for a key (entries are
  therefore stored in reverse insertion order and looked up front-first);
* the scalar field of the curve is an arbitrary `Field F` with decidable
  equality; the loader's `invert().unwrap()` is modelled by the field inverse
  (with `0⁻¹ = 0`), which agrees with the code whenever the inversion
  succeeds; group points are opaque values of a type `G`.
-/

/-- `Rotation(i32)` from the Rust side: a signed offset against ω. -/
abbrev Rot : Type := Int

/-- `Query { poly, rotation }`: structural key into the evaluation table. -/
structure Query where
  poly : Nat
  rotation : Rot
deriving DecidableEq, Repr

/-- The error enum of the verifier (`crate::Error`), as used by this file. -/
inductive VError where
  | InvalidInstances
  | TranscriptRead
  | MissingQuery (q : Query)
  | MissingChallenge (i : Nat)
deriving DecidableEq, Repr

/-- Transcript events, used to record the exact absorb/read/squeeze sequence. -/
inductive TEvent (F G : Type) where
  | common (x : F)
  | readScalar (x : F)
  | readPoint (p : G)
  | squeeze (x : F)
deriving DecidableEq, Repr

/-- Modelled from the spec (§4.3): a deterministic Fiat–Shamir transcript.
`rs`/`rp` are the streams of scalars/EC points remaining to be read (an
exhausted stream models a `TranscriptRead` failure), `sq` is the sequence of
challenges the hash would squeeze (indexed by `k`, the number of squeezes
performed so far), and `trace` logs every interaction in order. -/
structure TS (F G : Type) where
  rs : List F
  rp : List G
  sq : List F
  k : Nat
  trace : List (TEvent F G)
deriving DecidableEq, Repr

/-- Absorb a scalar (`Transcript::common_scalar`); never fails for the
byte-oriented transcripts this verifier is used with. -/
def TS.commonScalar {F G : Type} (ts : TS F G) (x : F) : TS F G :=
  { ts with trace := ts.trace ++ [TEvent.common x] }

/-- `Transcript::read_scalar`: absorb-then-bind the next proof scalar. -/
def TS.readScalar {F G : Type} (ts : TS F G) : Except VError (F × TS F G) :=
  match ts.rs with
  | [] => Except.error VError.TranscriptRead
  | x :: r =>
      Except.ok (x, { ts with rs := r, trace := ts.trace ++ [TEvent.readScalar x] })

/-- `Transcript::read_ec_point`. -/
def TS.readPoint {F G : Type} (ts : TS F G) : Except VError (G × TS F G) :=
  match ts.rp with
  | [] => Except.error VError.TranscriptRead
  | p :: r =>
      Except.ok (p, { ts with rp := r, trace := ts.trace ++ [TEvent.readPoint p] })

/-- `Transcript::squeeze_challenge`: cannot fail; the `k`-th squeeze returns
`sq.getD k 0` (an arbitrary but fixed challenge sequence). -/
def TS.squeeze {F G : Type} [OfNat F 0] (ts : TS F G) : F × TS F G :=
  let c := ts.sq.getD ts.k 0
  (c, { ts with k := ts.k + 1, trace := ts.trace ++ [TEvent.squeeze c] })

/-- `Transcript::read_n_scalars`. -/
def TS.readNScalars {F G : Type} : Nat → TS F G → Except VError (List F × TS F G)
  | 0, ts => Except.ok ([], ts)
  | n + 1, ts =>
      match ts.readScalar with
      | Except.error e => Except.error e
      | Except.ok (x, ts') =>
          match TS.readNScalars n ts' with
          | Except.error e => Except.error e
          | Except.ok (xs, ts'') => Except.ok (x :: xs, ts'')

/-- `Transcript::read_n_ec_points`. -/
def TS.readNPoints {F G : Type} : Nat → TS F G → Except VError (List G × TS F G)
  | 0, ts => Except.ok ([], ts)
  | n + 1, ts =>
      match ts.readPoint with
      | Except.error e => Except.error e
      | Except.ok (x, ts') =>
          match TS.readNPoints n ts' with
          | Except.error e => Except.error e
          | Except.ok (xs, ts'') => Except.ok (x :: xs, ts'')

/-- `Transcript::squeeze_n_challenges`. -/
def TS.squeezeN {F G : Type} [OfNat F 0] : Nat → TS F G → List F × TS F G
  | 0, ts => ([], ts)
  | n + 1, ts =>
      let (x, ts') := ts.squeeze
      let (xs, ts'') := TS.squeezeN n ts'
      (x :: xs, ts'')

/-- Modelled from the spec (§4.2): the deferred MSM value — a list of
(coefficient, base) terms plus a constant scalar term. -/
structure MSM (F G : Type) where
  constant : F
  terms : List (F × G)
deriving DecidableEq, Repr

/-- `MSM::base(g) = 1·g`. -/
def MSM.base {F G : Type} [Field F] (g : G) : MSM F G :=
  ⟨0, [(1, g)]⟩

/-- `MSM::scalar(s)`: a pure constant term. -/
def MSM.scalar {F G : Type} (s : F) : MSM F G :=
  ⟨s, []⟩

/-- `msm₁ + msm₂`: merge the constant terms and concatenate the bases. -/
def MSM.add {F G : Type} [Field F] (a b : MSM F G) : MSM F G :=
  ⟨a.constant + b.constant, a.terms ++ b.terms⟩

/-- `msm · s`: scale the constant and every coefficient. -/
def MSM.smul {F G : Type} [Field F] (a : MSM F G) (s : F) : MSM F G :=
  ⟨a.constant * s, a.terms.map (fun t => (t.1 * s, t.2))⟩

/-- `-msm`, used to implement subtraction. -/
def MSM.neg {F G : Type} [Field F] (a : MSM F G) : MSM F G :=
  a.smul (-1)

/-- `msm₁ - msm₂ = msm₁ + (-msm₂)`. -/
def MSM.sub {F G : Type} [Field F] (a b : MSM F G) : MSM F G :=
  a.add b.neg

instance {F G : Type} [Field F] : Add (MSM F G) := ⟨MSM.add⟩

instance {F G : Type} [Field F] : Sub (MSM F G) := ⟨MSM.sub⟩

instance {F G : Type} [Field F] : Zero (MSM F G) := ⟨⟨0, []⟩⟩

instance {F G : Type} [Field F] : AddMonoid (MSM F G) where
  add_assoc a b c := by
    show MSM.add (MSM.add a b) c = MSM.add a (MSM.add b c)
    simp [MSM.add, add_assoc]
  zero_add a := by
    show MSM.add ⟨0, []⟩ a = a
    simp [MSM.add]
  add_zero a := by
    show MSM.add a ⟨0, []⟩ = a
    simp [MSM.add]
  nsmul := nsmulRec

/-- `LoadedScalar::powers(n) = [1, s, s², …, s^(n-1)]`. -/
def powersL {F : Type} [Field F] (s : F) (n : Nat) : List F :=
  (List.range n).map (fun i => s ^ i)

/-- Association-list lookup (front entry wins), standing in for `HashMap::get`
on maps stored in reverse insertion order. -/
def alookup {α β : Type} [DecidableEq α] : List (α × β) → α → Option β
  | [], _ => none
  | (a, b) :: l, x => if a = x then some b else alookup l x

/-- First-encounter deduplication: the canonical ordered view of the
`HashSet`-backed "push if new" pattern used throughout the Rust code. -/
def addNew {α : Type} [DecidableEq α] (acc : List α) (a : α) : List α :=
  if a ∈ acc then acc else acc ++ [a]

/-- Deduplicate a list keeping each element's first occurrence. -/
def firstDedup {α : Type} [DecidableEq α] (l : List α) : List α :=
  l.foldl addNew []

/-- `collect::<Result<Vec<_>, E>>()`: stop at the first error. -/
def mapE {A B E : Type} (f : A → Except E B) : List A → Except E (List B)
  | [] => Except.ok []
  | a :: l =>
      match f a with
      | Except.error e => Except.error e
      | Except.ok b =>
          match mapE f l with
          | Except.error e => Except.error e
          | Except.ok bs => Except.ok (b :: bs)

/-- `collect::<Option<Vec<_>>>()`: stop at the first `none` (a panic site). -/
def mapO {A B : Type} (f : A → Option B) : List A → Option (List B)
  | [] => some []
  | a :: l =>
      match f a with
      | none => none
      | some b =>
          match mapO f l with
          | none => none
          | some bs => some (b :: bs)

/-- Modelled from the spec (§3): the tagged variants of `CommonPolynomial`
used by this verifier (`Lagrange(i32)` is the one the core consumes). -/
inductive CommonPoly where
  | lagrange (i : Int)
deriving DecidableEq, Repr

/-- Modelled from the spec (§3): the inductive `Expression` tree over which
relations are written. -/
inductive Expression (F : Type) where
  | constant (c : F)
  | common (cp : CommonPoly)
  | query (q : Query)
  | challenge (i : Nat)
  | negated (a : Expression F)
  | sum (a b : Expression F)
  | product (a b : Expression F)
  | scaled (a : Expression F) (c : F)
deriving DecidableEq, Repr

/-- Modelled from the spec (§3): `Expression::degree`, the polynomial degree
of the relation (queries and common polynomials count as degree 1). -/
def Expression.degree {F : Type} : Expression F → Nat
  | Expression.constant _ => 0
  | Expression.common _ => 1
  | Expression.query _ => 1
  | Expression.challenge _ => 0
  | Expression.negated a => a.degree
  | Expression.sum a b => max a.degree b.degree
  | Expression.product a b => a.degree + b.degree
  | Expression.scaled a _ => a.degree

/-- Modelled from the spec (§3): the evaluation `domain` — a multiplicative
subgroup of size `n = 2^k` with generator `omega`;
`rotate_scalar(s, r) = s · ω^r`. -/
structure Domain (F : Type) where
  k : Nat
  omega : F

/-- `n = 2^k`. -/
def Domain.n {F : Type} (d : Domain F) : Nat :=
  2 ^ d.k

/-- `Domain::rotate_scalar(scalar, rotation) = scalar · ω^rotation`. -/
def Domain.rotateScalar {F : Type} [Field F] (d : Domain F) (s : F) (r : Rot) : F :=
  s * d.omega ^ r

/-- Modelled from the spec (§3): the compiled `Protocol` description consumed
by the verifier. `vanishing_poly` is the synthetic index `vanishing_poly()`
returns. -/
structure Protocol (F G : Type) where
  domain : Domain F
  preprocessed : List G
  num_statement : Nat
  num_auxiliary : List Nat
  num_challenge : List Nat
  relations : List (Expression F)
  queries : List Query
  evaluations : List Query
  vanishing_poly : Nat
  transcript_initial_state : F

/-- Modelled from the spec (§2, §4.8): `CommonPolynomialEvaluation::new`
precomputes `L_i(z)` (standard Lagrange formula over the `2^k` domain),
`z^n` and `(z^n − 1)⁻¹`. The core consumes it only through these fields. -/
structure CommonPolyEval (F : Type) where
  lagrangeAt : Int → F
  zn : F
  zn_minus_one_inv : F

/-- Constructor of the common-polynomial evaluations at challenge `z`. -/
def CommonPolyEval.new {F : Type} [Field F] (d : Domain F) (z : F) : CommonPolyEval F :=
  { lagrangeAt := fun i =>
      d.rotateScalar 1 i * (z ^ d.n - 1) / ((d.n : F) * (z - d.rotateScalar 1 i))
    zn := z ^ d.n
    zn_minus_one_inv := (z ^ d.n - 1)⁻¹ }

/-- `common_poly_eval.get`. -/
def CommonPolyEval.get {F : Type} (cpe : CommonPolyEval F) : CommonPoly → F
  | CommonPoly.lagrange i => cpe.lagrangeAt i

/-- The deserialized transcript output (`struct Proof`). -/
structure Proof (F G : Type) where
  statements : List (List F)
  auxiliaries : List G
  challenges : List F
  alpha : F
  quotients : List G
  z : F
  evaluations : List F
  mu : F
  gamma : F
  w : G
  z_prime : F
  w_prime : G
deriving DecidableEq, Repr

/-- The per-phase reads of `Proof::read`: for each pair `(n, m)` drawn from
`num_auxiliary.zip(num_challenge)`, read `n` EC points and squeeze `m`
challenges; the phase outputs are then flattened in phase order. -/
def phasesRead {F G : Type} [OfNat F 0] :
    List (Nat × Nat) → TS F G → Except VError ((List G × List F) × TS F G)
  | [], ts => Except.ok (([], []), ts)
  | (n, m) :: rest, ts =>
      match TS.readNPoints n ts with
      | Except.error e => Except.error e
      | Except.ok (pts, ts') =>
          let (chs, ts'') := TS.squeezeN m ts'
          match phasesRead rest ts'' with
          | Except.error e => Except.error e
          | Except.ok ((ps, cs), ts''') => Except.ok ((pts ++ ps, chs ++ cs), ts''')

/-- The combined effect type of the verifier pipeline: `none` is a Rust
panic, `some (Except.error e)` an `Err(e)` return, `some (Except.ok a)` a
normal value.  `bind` chains stages exactly like `?` does (panics and errors
short-circuit). -/
abbrev OE (E A : Type) : Type :=
  Option (Except E A)

deriving instance DecidableEq for Except

/-- Normal return. -/
def OE.ok {E A : Type} (a : A) : OE E A :=
  some (Except.ok a)

/-- `Err(e)` return. -/
def OE.fail {E A : Type} (e : E) : OE E A :=
  some (Except.error e)

/-- Rust panic. -/
def OE.panic {E A : Type} : OE E A :=
  none

/-- Sequencing: propagate panics and errors, continue on values. -/
def OE.bind {E A B : Type} (x : OE E A) (f : A → OE E B) : OE E B :=
  match x with
  | none => none
  | some (Except.error e) => some (Except.error e)
  | some (Except.ok a) => f a

/-- Lift a `Result` (the `?` operator on an infallible-panic stage). -/
def OE.lift {E A : Type} (x : Except E A) : OE E A :=
  some x

/-- Lift an `Option` whose `none` is an `unwrap` panic. -/
def OE.ofOption {E A : Type} (x : Option A) : OE E A :=
  match x with
  | none => none
  | some a => some (Except.ok a)

/-- `Proof::read`: drive the transcript in the canonical order (§4.4).
A panic (`OE.panic`) occurs exactly when the Rust code would panic:
`relations` empty (`max().unwrap()`), or `max_degree = 0` (the `usize`
subtraction `max_degree - 1` underflows). -/
def Proof.read {F G : Type} [Field F] (P : Protocol F G) (statements : List (List F))
    (ts : TS F G) : OE VError (Proof F G × TS F G) :=
  if statements.length ≠ P.num_statement then OE.fail VError.InvalidInstances
  else
    OE.bind (OE.lift (phasesRead (P.num_auxiliary.zip P.num_challenge)
      (statements.foldl (fun a st => st.foldl TS.commonScalar a) ts))) (fun act =>
    OE.bind (OE.ofOption ((P.relations.map Expression.degree).max?)) (fun maxDegree =>
    if maxDegree = 0 then OE.panic else
    OE.bind (OE.lift (TS.readNPoints (maxDegree - 1) act.2.squeeze.2)) (fun qt =>
    OE.bind (OE.lift (TS.readNScalars P.evaluations.length qt.2.squeeze.2)) (fun et =>
    OE.bind (OE.lift et.2.squeeze.2.squeeze.2.readPoint) (fun wt =>
    OE.bind (OE.lift wt.2.squeeze.2.readPoint) (fun wt2 =>
    OE.ok ({ statements := statements
             auxiliaries := act.1.1
             challenges := act.1.2
             alpha := act.2.squeeze.1
             quotients := qt.1
             z := qt.2.squeeze.1
             evaluations := et.1
             mu := et.2.squeeze.1
             gamma := et.2.squeeze.2.squeeze.1
             w := wt.1
             z_prime := wt.2.squeeze.1
             w_prime := wt2.1 }, wt2.2)))))))

/-- `Expression::evaluate` with the handlers `Proof::evaluations` passes:
constants and common polynomials always succeed, query lookups fail with
`MissingQuery`, challenge lookups with `MissingChallenge`; `sum`/`product`
evaluate the left operand first (matching the `and_then` chaining). -/
def evalExpr {F : Type} [Field F] (cpe : CommonPolyEval F) (table : List (Query × F))
    (challenges : List F) : Expression F → Except VError F
  | Expression.constant c => Except.ok c
  | Expression.common cp => Except.ok (cpe.get cp)
  | Expression.query q =>
      match alookup table q with
      | some v => Except.ok v
      | none => Except.error (VError.MissingQuery q)
  | Expression.challenge i =>
      match challenges.get? i with
      | some v => Except.ok v
      | none => Except.error (VError.MissingChallenge i)
  | Expression.negated a =>
      match evalExpr cpe table challenges a with
      | Except.error e => Except.error e
      | Except.ok va => Except.ok (-va)
  | Expression.sum a b =>
      match evalExpr cpe table challenges a with
      | Except.error e => Except.error e
      | Except.ok va =>
          match evalExpr cpe table challenges b with
          | Except.error e => Except.error e
          | Except.ok vb => Except.ok (va + vb)
  | Expression.product a b =>
      match evalExpr cpe table challenges a with
      | Except.error e => Except.error e
      | Except.ok va =>
          match evalExpr cpe table challenges b with
          | Except.error e => Except.error e
          | Except.ok vb => Except.ok (va * vb)
  | Expression.scaled a c =>
      match evalExpr cpe table challenges a with
      | Except.error e => Except.error e
      | Except.ok va => Except.ok (va * c)

/-- The evaluation table of `Proof::evaluations` *before* the quotient
evaluation is inserted: statement evaluations
`Σ_j statement_i[j] · L_j(z)` keyed at `(preprocessed_len + i, cur)`,
chained with `protocol.evaluations.zip(proof.evaluations)`.  The list is
reversed so that front-first `alookup` realizes the `HashMap` rule that the
later insertion wins. -/
def baseEvalTable {F G : Type} [Field F] (pr : Proof F G) (P : Protocol F G)
    (cpe : CommonPolyEval F) : List (Query × F) :=
  let statement_evaluations := pr.statements.map (fun st =>
    (st.enum.map (fun ix => ix.2 * cpe.get (CommonPoly.lagrange (ix.1 : Int)))).sum)
  ((statement_evaluations.enum.map (fun ie =>
      ((⟨P.preprocessed.length + ie.1, (0 : Rot)⟩ : Query), ie.2)))
    ++ P.evaluations.zip pr.evaluations).reverse

/-- `Proof::evaluations`: evaluate each relation at `z`, fold them with
descending powers of `alpha`, scale by `(z^n − 1)⁻¹`, and insert the result
under `Query { poly: vanishing_poly(), rotation: cur() }` (modelled by
consing the entry onto the reversed table).  Named `evaluationsTable` because
`Proof.evaluations` is taken by the structure field. -/
def Proof.evaluationsTable {F G : Type} [Field F] (pr : Proof F G) (P : Protocol F G)
    (cpe : CommonPolyEval F) : Except VError (List (Query × F)) :=
  match mapE (fun ar =>
      (evalExpr cpe (baseEvalTable pr P cpe) pr.challenges ar.2).map
        (fun v => ar.1 * v))
      ((powersL pr.alpha P.relations.length).reverse.zip P.relations) with
  | Except.error e => Except.error e
  | Except.ok vals =>
      Except.ok ((⟨P.vanishing_poly, (0 : Rot)⟩, vals.sum * cpe.zn_minus_one_inv)
        :: baseEvalTable pr P cpe)

/-- `Proof::commitments`: the map `poly_index → MSM` holding the preprocessed
bases, the auxiliaries offset by `preprocessed.len() + num_statement`, and the
quotient aggregate `Σ_i z^(n·i) · base(quotients[i])` at `vanishing_poly()`.
`none` models the panic of `reduce(..).unwrap()` when `quotients` is empty.
The vanishing entry is placed at the front because it is inserted last. -/
def Proof.commitments {F G : Type} [Field F] [DecidableEq G] (pr : Proof F G)
    (P : Protocol F G) (cpe : CommonPolyEval F) : Option (List (Nat × MSM F G)) :=
  let pre := P.preprocessed.enum.map (fun ig => (ig.1, MSM.base (F := F) ig.2))
  let auxiliary_offset := P.preprocessed.length + P.num_statement
  let auxs := pr.auxiliaries.enum.map (fun ia =>
    (auxiliary_offset + ia.1, MSM.base (F := F) ia.2))
  match ((powersL cpe.zn pr.quotients.length).zip
      (pr.quotients.map (MSM.base (F := F)))).map (fun cp => cp.2.smul cp.1) with
  | [] => none
  | t :: rest => some ((P.vanishing_poly, rest.foldl MSM.add t) :: (pre ++ auxs))

/-- Fueled structural version of `usize::next_power_of_two` (Rust std):
doubling search starting from 1; `n` units of fuel always suffice since
`2^n ≥ n`.  Structural recursion keeps the definition kernel-reducible. -/
def npotGo (n : Nat) : Nat → Nat → Nat
  | 0, p => p
  | fuel + 1, p => if p < n then npotGo n fuel (p * 2) else p

/-- `usize::next_power_of_two` (`0 → 1`, `3 → 4`, `4 → 4`). -/
def nextPow2 (n : Nat) : Nat :=
  npotGo n n 1

/-- Fueled structural version of `usize::log2` (floor base-2 logarithm). -/
def log2Fuel : Nat → Nat → Nat
  | 0, _ => 0
  | fuel + 1, n => if n ≤ 1 then 0 else log2Fuel fuel (n / 2) + 1

/-- `usize::log2` (floor base-2 logarithm; `log2F 1 = 0`, `log2F 4 = 2`). -/
def log2F (n : Nat) : Nat :=
  log2Fuel n n

/-- The idiosyncratic square-and-multiply of `IntermediateSet::new`
(lines 362–374): fold over `powers_of_z.iter().enumerate().skip(1)`,
multiplying `acc` by `powers_of_z[i]` whenever `k_minus_one & (1 << i) == 1`. -/
def z_pow_k_minus_one {F : Type} [Field F] (k_minus_one : Nat)
    (powers_of_z : List F) : F :=
  (powers_of_z.enum.drop 1).foldl
    (fun acc ip => if k_minus_one &&& (1 <<< ip.1) = 1 then acc * ip.2 else acc) 1

/-- `struct IntermediateSet` (scalar parts; the group type plays no role). -/
structure ISet (F : Type) where
  polys : List Nat
  rotations : List Rot
  z_s : F
  commitment_coeff : Option F
  evaluation_coeffs : List F
  remainder_coeff : F
deriving DecidableEq, Repr

/-- `IntermediateSet::new`.  `zm` is the association list
`z_prime_minus_z_omega_i` (every rotation of `rotations` is a key whenever the
caller passes the superset map, so the `getD _ 0` fallbacks modelling
`get(..).unwrap()` are never exercised by `intermediate_sets`); `z_s_1` is the
memoized `z_s` of the first set.  The `reduce(..).unwrap()` over the rotations
is modelled by `List.prod`, which agrees with it because every rotation list
handed to `new` is non-empty. -/
def ISet.new {F : Type} [Field F] (d : Domain F) (rotations : List Rot)
    (powers_of_z : List F) (z_prime : F) (zm : List (Rot × F)) (z_s_1 : Option F) :
    ISet F :=
  let omegas := rotations.map (fun r => d.rotateScalar 1 r)
  let normalized_ell_primes := omegas.enum.map (fun jm =>
    (omegas.enum.filter (fun im => im.1 ≠ jm.1)).foldl
      (fun acc im => acc * (jm.2 - im.2)) 1)
  let z := powers_of_z.getD 1 0
  let zk := z_pow_k_minus_one (rotations.length - 1) powers_of_z
  let barycentric_weights := (omegas.zip normalized_ell_primes).map (fun oe =>
    (oe.2 * zk * z_prime + (-(oe.2 * oe.1)) * zk * z + 0)⁻¹)
  let z_s := (rotations.map (fun r => (alookup zm r).getD 0)).prod
  let z_s_1_over_z_s := z_s_1.map (fun zs1 => zs1 * z_s⁻¹)
  let barycentric_weights_sum_inv := barycentric_weights.sum⁻¹
  let remainder_coeff :=
    (z_s_1_over_z_s.map (fun c => c * barycentric_weights_sum_inv)).getD
      barycentric_weights_sum_inv
  { polys := []
    rotations := rotations
    z_s := z_s
    commitment_coeff := z_s_1_over_z_s
    evaluation_coeffs := barycentric_weights
    remainder_coeff := remainder_coeff }

/-- One step of the `poly_rotations` fold of `intermediate_sets`
(lines 473–496): find the entry for the query's poly and append its rotation
if new, otherwise push a fresh entry. -/
def insertPR : List (Nat × List Rot) → Query → List (Nat × List Rot)
  | [], q => [(q.poly, [q.rotation])]
  | (p, rs) :: rest, q =>
      if p = q.poly then
        (p, if q.rotation ∈ rs then rs else rs ++ [q.rotation]) :: rest
      else
        (p, rs) :: insertPR rest q

/-- The `poly_rotations` accumulator: per-poly first-encounter rotation
lists, polys in first-encounter order. -/
def polyRotations (queries : List Query) : List (Nat × List Rot) :=
  queries.foldl insertPR []

/-- The `superset` of rotations appearing in any query, in first-encounter
order (the canonical ordered view of the Rust `HashSet`). -/
def superset (queries : List Query) : List Rot :=
  firstDedup (queries.map (fun q => q.rotation))

/-- The `z_prime_minus_z_omega_i` map built by iterating the superset in the
order given by `order`: `rotation ↦ z′ − z·ω^rotation`. -/
def zMap {F : Type} [Field F] (order : List Rot) (d : Domain F) (z z_prime : F) :
    List (Rot × F) :=
  order.map (fun r => (r, z_prime - z * d.rotateScalar 1 r))

/-- Try to place `(poly, rots)` into an existing intermediate set whose
rotations agree as a set (lines 526–532); `none` if no set matches. -/
def addToSets {F : Type} [Field F] :
    List (ISet F) → Nat → List Rot → Option (List (ISet F))
  | [], _, _ => none
  | s :: rest, poly, rots =>
      if s.rotations.toFinset = rots.toFinset then
        some ((if poly ∈ s.polys then s
               else { s with polys := s.polys ++ [poly] }) :: rest)
      else
        (addToSets rest poly rots).map (fun l => s :: l)

/-- One step of the second fold of `intermediate_sets` (lines 523–553),
threading the `z_s_1` memo. -/
def stepSets {F : Type} [Field F] (d : Domain F) (powers_of_z : List F)
    (z_prime : F) (zm : List (Rot × F)) (acc : List (ISet F) × Option F)
    (e : Nat × List Rot) : List (ISet F) × Option F :=
  match addToSets acc.1 e.1 e.2 with
  | some sets => (sets, acc.2)
  | none =>
      let s := { ISet.new d e.2 powers_of_z z_prime zm acc.2 with polys := [e.1] }
      (acc.1 ++ [s], if acc.2.isNone then some s.z_s else acc.2)

/-- `intermediate_sets`, with the `HashSet` iteration order of the superset
made explicit as `order`.  `none` models the panic of `max().unwrap()` when
`protocol.queries` is empty. -/
def intermediateSetsOrd {F G : Type} [Field F] (order : List Rot)
    (P : Protocol F G) (z z_prime : F) : Option (List (ISet F)) :=
  match ((polyRotations P.queries).map (fun e => e.2.length)).max? with
  | none => none
  | some maxLen =>
      some (((polyRotations P.queries).foldl
        (stepSets P.domain (powersL z (max 2 (log2F (nextPow2 (maxLen - 1)) + 1)))
          z_prime (zMap order P.domain z z_prime)) ([], none)).1)

/-- `intermediate_sets` with the canonical (first-encounter) iteration order. -/
def intermediateSets {F G : Type} [Field F] (P : Protocol F G) (z z_prime : F) :
    Option (List (ISet F)) :=
  intermediateSetsOrd (superset P.queries) P z z_prime

/-- `IntermediateSet::msm` (lines 425–463): descending powers of μ over the
set's polys; `none` models the panics of `commitments.get(poly).unwrap()`,
`evaluations.get(&query).unwrap()` and the empty-fold `reduce(..).unwrap()`. -/
def ISet.msm {F G : Type} [Field F] [DecidableEq G] (s : ISet F)
    (commitments : List (Nat × MSM F G)) (evaluations : List (Query × F))
    (powers_of_mu : List F) : Option (MSM F G) :=
  match mapO (fun pm => do
      let c ← alookup commitments pm.1
      let commitment := match s.commitment_coeff with
        | some cc => c.smul cc
        | none => c
      let evs ← mapO (fun rc => do
        let v ← alookup evaluations (⟨pm.1, rc.1⟩ : Query)
        pure (rc.2 * v)) (s.rotations.zip s.evaluation_coeffs)
      pure ((commitment.sub (MSM.scalar (s.remainder_coeff * evs.sum))).smul pm.2))
      (s.polys.zip ((powers_of_mu.take s.polys.length).reverse)) with
  | none => none
  | some [] => none
  | some (t :: rest) => some (rest.foldl MSM.add t)

/-- `verify_proof`, with the superset iteration order explicit.  The result
models what the strategy's `process` receives: the proof and the `(lhs, rhs)`
MSM pair; `OE.panic` models a panic on the way. -/
def verifyProofOrd {F G : Type} [Field F] [DecidableEq G] (order : List Rot)
    (P : Protocol F G) (statements : List (List F)) (ts : TS F G) :
    OE VError (Proof F G × MSM F G × MSM F G) :=
  OE.bind (Proof.read P statements
      (ts.commonScalar P.transcript_initial_state)) (fun prts =>
  OE.bind (OE.ofOption (Proof.commitments prts.1 P
      (CommonPolyEval.new P.domain prts.1.z))) (fun commitments =>
  OE.bind (OE.lift (Proof.evaluationsTable prts.1 P
      (CommonPolyEval.new P.domain prts.1.z))) (fun evaluations =>
  OE.bind (OE.ofOption (intermediateSetsOrd order P prts.1.z
      prts.1.z_prime)) (fun sets =>
  OE.bind (OE.ofOption ((sets.map (fun s => s.polys.length)).max?)) (fun maxPolys =>
  OE.bind (OE.ofOption (mapO
      (fun s => s.msm commitments evaluations (powersL prts.1.mu maxPolys))
      sets)) (fun msms =>
  match sets, (msms.zip ((powersL prts.1.gamma sets.length).reverse)).map
      (fun mg => mg.1.smul mg.2) with
  | s0 :: _, t :: rest =>
      OE.ok (prts.1,
        ((rest.foldl MSM.add t).sub ((MSM.base prts.1.w).smul s0.z_s)).add
          ((MSM.base (F := F) prts.1.w_prime).smul prts.1.z_prime),
        MSM.base (F := F) prts.1.w_prime)
  | _, _ => OE.panic))))))

/-- `verify_proof` with the canonical superset iteration order. -/
def verifyProof {F G : Type} [Field F] [DecidableEq G] (P : Protocol F G)
    (statements : List (List F)) (ts : TS F G) :
    OE VError (Proof F G × MSM F G × MSM F G) :=
  verifyProofOrd (superset P.queries) P statements ts

/-! ### Lemmas about `z_pow_k_minus_one` (claim C1) -/

/-- For `i ≥ 1` the guard `k_minus_one &&& (1 <<< i) == 1` of the
square-and-multiply fold can never hold: `k &&& 2^i` is either `0` or `2^i`. -/
theorem and_shift_ne_one (km i : Nat) (hi : 1 ≤ i) : km &&& (1 <<< i) ≠ 1 := by
  intro h
  have hb : (km &&& (1 <<< i)).testBit 0 = true := by
    rw [h]; rfl
  rw [Nat.one_shiftLeft, Nat.testBit_and, Nat.testBit_two_pow] at hb
  have : ¬(i = 0) := by omega
  simp [this] at hb

/-- Auxiliary: the fold of `z_pow_k_minus_one` leaves the accumulator
untouched on any enumeration whose indices are all positive. -/
theorem zpow_fold_const {F : Type} [Field F] (km : Nat) (l : List (Nat × F))
    (hl : ∀ p ∈ l, 1 ≤ p.1) (a : F) :
    l.foldl (fun acc ip => if km &&& (1 <<< ip.1) = 1 then acc * ip.2 else acc) a = a := by
  induction l generalizing a with
  | nil => rfl
  | cons p rest ih =>
      have hp : 1 ≤ p.1 := hl p (List.mem_cons_self p rest)
      have hrest : ∀ q ∈ rest, 1 ≤ q.1 := fun q hq => hl q (List.mem_cons_of_mem p hq)
      simp only [List.foldl_cons, and_shift_ne_one km p.1 hp, if_neg]
      exact ih hrest a

/-- Indices in `l.enum.drop 1` are all positive. -/
theorem enum_drop_one_pos {F : Type} (l : List F) :
    ∀ p ∈ l.enum.drop 1, 1 ≤ p.1 := by
  cases l with
  | nil => intro p hp; simp [List.enum] at hp
  | cons a t =>
      intro p hp
      rw [List.enum_cons] at hp
      simp only [List.drop_succ_cons, List.drop_zero] at hp
      obtain ⟨i, x⟩ := p
      obtain ⟨h1, _, _⟩ := List.mem_enumFrom hp
      exact h1

/-- The value `z_pow_k_minus_one` actually computed by the code is the
constant `1`, for every `k_minus_one` and every list of powers of `z`. -/
theorem z_pow_k_minus_one_eq_one {F : Type} [Field F] (km : Nat) (pz : List F) :
    z_pow_k_minus_one km pz = 1 := by
  unfold z_pow_k_minus_one
  exact zpow_fold_const km _ (enum_drop_one_pos pz) 1

/-- Claim C1: the claim asserts that in `IntermediateSet::new` the computed
`z_pow_k_minus_one` equals `z^(k-1)` for every rotation list of length
`k ≥ 2`.  The code is wrong: the guard `k_minus_one & (1 << i) == 1` compares
against `1` instead of testing for a set bit, and since the fold skips index
`0` the guard is never true, so the computed value is the constant `1`.  This
theorem evaluates the code at the failing inputs: for `k ∈ {2, 3, 5}` with
`z = 2` and `powers_of_z` sized exactly as `intermediate_sets` would size
them, the computed value is `1` while `z^(k-1)` is not. -/
theorem C1_z_pow_k_minus_one_bug :
    (∀ (F : Type) [Field F] (km : Nat) (pz : List F),
      z_pow_k_minus_one km pz = 1) ∧
    z_pow_k_minus_one (2 - 1) (powersL (2 : ℚ) 2) = 1 ∧ (2 : ℚ) ^ (2 - 1) ≠ 1 ∧
    z_pow_k_minus_one (3 - 1) (powersL (2 : ℚ) 2) = 1 ∧ (2 : ℚ) ^ (3 - 1) ≠ 1 ∧
    z_pow_k_minus_one (5 - 1) (powersL (2 : ℚ) 3) = 1 ∧ (2 : ℚ) ^ (5 - 1) ≠ 1 := by
  refine ⟨fun F _ km pz => z_pow_k_minus_one_eq_one km pz, ?_, ?_, ?_, ?_, ?_, ?_⟩
  · exact z_pow_k_minus_one_eq_one _ _
  · norm_num
  · exact z_pow_k_minus_one_eq_one _ _
  · norm_num
  · exact z_pow_k_minus_one_eq_one _ _
  · norm_num

/-! ### Transcript lemmas (claims C3, C4, C10) -/

/-- Effect of a successful `read_n_scalars` on the transcript state. -/
theorem readNScalars_ok {F G : Type} :
    ∀ (n : Nat) (ts ts' : TS F G) (xs : List F),
    TS.readNScalars n ts = Except.ok (xs, ts') →
    xs = ts.rs.take n ∧ ts'.rs = ts.rs.drop n ∧ ts'.rp = ts.rp ∧ ts'.sq = ts.sq ∧
      ts'.k = ts.k ∧ ts'.trace = ts.trace ++ xs.map TEvent.readScalar ∧
      xs.length = n := by
  intro n
  induction n with
  | zero =>
      intro ts ts' xs h
      simp only [TS.readNScalars] at h
      obtain ⟨h1, h2⟩ := Prod.mk.injEq .. ▸ (Except.ok.injEq .. ▸ h)
      subst h1; subst h2
      simp
  | succ n ih =>
      intro ts ts' xs h
      simp only [TS.readNScalars, TS.readScalar] at h
      cases hrs : ts.rs with
      | nil => rw [hrs] at h; exact absurd h (by simp)
      | cons x r =>
          rw [hrs] at h
          simp only [] at h
          cases hrec : TS.readNScalars n
              ({ ts with rs := r, trace := ts.trace ++ [TEvent.readScalar x] }) with
          | error e => rw [hrec] at h; exact absurd h (by simp)
          | ok p =>
              obtain ⟨xs0, ts0⟩ := p
              rw [hrec] at h
              simp only [Except.ok.injEq, Prod.mk.injEq] at h
              obtain ⟨hxs, hts⟩ := h
              subst hxs; subst hts
              obtain ⟨e1, e2, e3, e4, e5, e6, e7⟩ := ih _ _ _ hrec
              refine ⟨by simp [e1], by simpa using e2, by simpa using e3,
                by simpa using e4, by simpa using e5, ?_, by simp [e7]⟩
              rw [e6]
              simp

/-- Effect of a successful `read_n_ec_points` on the transcript state. -/
theorem readNPoints_ok {F G : Type} :
    ∀ (n : Nat) (ts ts' : TS F G) (xs : List G),
    TS.readNPoints n ts = Except.ok (xs, ts') →
    xs = ts.rp.take n ∧ ts'.rp = ts.rp.drop n ∧ ts'.rs = ts.rs ∧ ts'.sq = ts.sq ∧
      ts'.k = ts.k ∧ ts'.trace = ts.trace ++ xs.map TEvent.readPoint ∧
      xs.length = n := by
  intro n
  induction n with
  | zero =>
      intro ts ts' xs h
      simp only [TS.readNPoints] at h
      obtain ⟨h1, h2⟩ := Prod.mk.injEq .. ▸ (Except.ok.injEq .. ▸ h)
      subst h1; subst h2
      simp
  | succ n ih =>
      intro ts ts' xs h
      simp only [TS.readNPoints, TS.readPoint] at h
      cases hrs : ts.rp with
      | nil => rw [hrs] at h; exact absurd h (by simp)
      | cons x r =>
          rw [hrs] at h
          simp only [] at h
          cases hrec : TS.readNPoints n
              ({ ts with rp := r, trace := ts.trace ++ [TEvent.readPoint x] }) with
          | error e => rw [hrec] at h; exact absurd h (by simp)
          | ok p =>
              obtain ⟨xs0, ts0⟩ := p
              rw [hrec] at h
              simp only [Except.ok.injEq, Prod.mk.injEq] at h
              obtain ⟨hxs, hts⟩ := h
              subst hxs; subst hts
              obtain ⟨e1, e2, e3, e4, e5, e6, e7⟩ := ih _ _ _ hrec
              refine ⟨by simp [e1], by simpa using e2, by simpa using e3,
                by simpa using e4, by simpa using e5, ?_, by simp [e7]⟩
              rw [e6]
              simp

/-- Effect of `squeeze_n_challenges` on the transcript state (total). -/
theorem squeezeN_spec {F G : Type} [OfNat F 0] :
    ∀ (m : Nat) (ts : TS F G),
    (TS.squeezeN m ts).2.rs = ts.rs ∧ (TS.squeezeN m ts).2.rp = ts.rp ∧
      (TS.squeezeN m ts).2.sq = ts.sq ∧ (TS.squeezeN m ts).2.k = ts.k + m ∧
      (TS.squeezeN m ts).2.trace =
        ts.trace ++ ((TS.squeezeN m ts).1).map TEvent.squeeze ∧
      ((TS.squeezeN m ts).1).length = m := by
  intro m
  induction m with
  | zero => intro ts; simp [TS.squeezeN]
  | succ m ih =>
      intro ts
      obtain ⟨e1, e2, e3, e4, e5, e6⟩ := ih
        { ts with k := ts.k + 1, trace := ts.trace ++ [TEvent.squeeze (ts.sq.getD ts.k 0)] }
      simp only [TS.squeezeN, TS.squeeze]
      refine ⟨by simpa using e1, by simpa using e2, by simpa using e3,
        by simp at e4 ⊢; omega, ?_, by simpa using e6⟩
      simp only [List.map_cons]
      rw [e5]
      simp

/-- The errors of the reading primitives are always `TranscriptRead`. -/
theorem readNScalars_error {F G : Type} :
    ∀ (n : Nat) (ts : TS F G) (e : VError),
    TS.readNScalars n ts = Except.error e → e = VError.TranscriptRead := by
  intro n
  induction n with
  | zero => intro ts e h; simp [TS.readNScalars] at h
  | succ n ih =>
      intro ts e h
      simp only [TS.readNScalars, TS.readScalar] at h
      cases hrs : ts.rs with
      | nil =>
          rw [hrs] at h
          simp only [Except.error.injEq] at h
          exact h.symm
      | cons x r =>
          rw [hrs] at h
          simp only [] at h
          cases hrec : TS.readNScalars n
              ({ ts with rs := r, trace := ts.trace ++ [TEvent.readScalar x] }) with
          | error e' =>
              rw [hrec] at h
              simp only [Except.error.injEq] at h
              subst h
              exact ih _ _ hrec
          | ok p => rw [hrec] at h; exact absurd h (by simp)

/-- The errors of `read_n_ec_points` are always `TranscriptRead`. -/
theorem readNPoints_error {F G : Type} :
    ∀ (n : Nat) (ts : TS F G) (e : VError),
    TS.readNPoints n ts = Except.error e → e = VError.TranscriptRead := by
  intro n
  induction n with
  | zero => intro ts e h; simp [TS.readNPoints] at h
  | succ n ih =>
      intro ts e h
      simp only [TS.readNPoints, TS.readPoint] at h
      cases hrs : ts.rp with
      | nil =>
          rw [hrs] at h
          simp only [Except.error.injEq] at h
          exact h.symm
      | cons x r =>
          rw [hrs] at h
          simp only [] at h
          cases hrec : TS.readNPoints n
              ({ ts with rp := r, trace := ts.trace ++ [TEvent.readPoint x] }) with
          | error e' =>
              rw [hrec] at h
              simp only [Except.error.injEq] at h
              subst h
              exact ih _ _ hrec
          | ok p => rw [hrec] at h; exact absurd h (by simp)

/-- Absorbing a list of scalars appends the corresponding `common` events. -/
theorem foldl_commonScalar {F G : Type} :
    ∀ (st : List F) (ts : TS F G),
    st.foldl TS.commonScalar ts =
      { ts with trace := ts.trace ++ st.map TEvent.common } := by
  intro st
  induction st with
  | nil => intro ts; simp
  | cons x r ih =>
      intro ts
      simp only [List.foldl_cons, List.map_cons]
      rw [ih]
      simp [TS.commonScalar]

/-- Absorbing all statement slices appends the flattened `common` events. -/
theorem foldl_statements {F G : Type} :
    ∀ (sts : List (List F)) (ts : TS F G),
    sts.foldl (fun a st => st.foldl TS.commonScalar a) ts =
      { ts with trace := ts.trace ++ sts.join.map TEvent.common } := by
  intro sts
  induction sts with
  | nil => intro ts; simp
  | cons st r ih =>
      intro ts
      simp only [List.foldl_cons, List.join, List.map_append]
      rw [foldl_commonScalar, ih]
      simp

/-- The interleaved per-phase trace predicted by the spec (§4.4, step 3):
`num_auxiliary[i]` point reads, then `num_challenge[i]` squeezes, the
auxiliaries and challenges taken from the flattened lists. -/
def phaseTrace {F G : Type} : List (Nat × Nat) → List G → List F → List (TEvent F G)
  | [], _, _ => []
  | (n, m) :: rest, pts, chs =>
      (pts.take n).map TEvent.readPoint ++ (chs.take m).map TEvent.squeeze ++
        phaseTrace rest (pts.drop n) (chs.drop m)

/-- Effect of a successful `phasesRead` on the transcript state. -/
theorem phasesRead_ok {F G : Type} [OfNat F 0] :
    ∀ (counts : List (Nat × Nat)) (ts ts2 : TS F G) (ps : List G) (cs : List F),
    phasesRead counts ts = Except.ok ((ps, cs), ts2) →
    ts2.trace = ts.trace ++ phaseTrace counts ps cs ∧ ts2.rs = ts.rs ∧
      ts2.sq = ts.sq ∧ ps.length = (counts.map Prod.fst).sum ∧
      cs.length = (counts.map Prod.snd).sum ∧
      ts2.rp = ts.rp.drop ((counts.map Prod.fst).sum) ∧
      ts2.k = ts.k + (counts.map Prod.snd).sum := by
  intro counts
  induction counts with
  | nil =>
      intro ts ts2 ps cs h
      simp only [phasesRead] at h
      obtain ⟨h1, h2⟩ := Prod.mk.injEq .. ▸ (Except.ok.injEq .. ▸ h)
      obtain ⟨hp, hc⟩ := Prod.mk.injEq .. ▸ h1
      subst hp; subst hc; subst h2
      simp [phaseTrace]
  | cons nm rest ih =>
      intro ts ts2 ps cs h
      obtain ⟨n, m⟩ := nm
      simp only [phasesRead] at h
      cases hpts : TS.readNPoints n ts with
      | error e => rw [hpts] at h; exact absurd h (by simp)
      | ok ptsp =>
          obtain ⟨pts, ts'⟩ := ptsp
          rw [hpts] at h
          simp only [] at h
          cases hrec : phasesRead rest (TS.squeezeN m ts').2 with
          | error e => rw [hrec] at h; exact absurd h (by simp)
          | ok pcs =>
              obtain ⟨⟨ps', cs'⟩, ts'''⟩ := pcs
              rw [hrec] at h
              simp only [Except.ok.injEq, Prod.mk.injEq] at h
              obtain ⟨⟨hps, hcs⟩, hts⟩ := h
              subst hps; subst hcs; subst hts
              obtain ⟨p1, p2, p3, p4, p5, p6, p7⟩ := readNPoints_ok n ts ts' pts hpts
              obtain ⟨s1, s2, s3, s4, s5, s6⟩ := squeezeN_spec m ts'
              obtain ⟨r1, r2, r3, r4, r5, r6, r7⟩ := ih _ _ _ _ hrec
              constructor
              · rw [r1, s5, p6, phaseTrace]
                have htake : (pts ++ ps').take n = pts := List.take_left' p7
                have hdrop : (pts ++ ps').drop n = ps' := List.drop_left' p7
                have htakec : ((TS.squeezeN m ts').1 ++ cs').take m =
                    (TS.squeezeN m ts').1 := List.take_left' s6
                have hdropc : ((TS.squeezeN m ts').1 ++ cs').drop m = cs' :=
                  List.drop_left' s6
                rw [htake, hdrop, htakec, hdropc]
                simp
              refine ⟨by rw [r2, s1, p3], by rw [r3, s3, p4], ?_, ?_, ?_, ?_⟩
              · simp [p7, r4]
              · simp [s6, r5]
              · rw [r6, s2, p2]
                simp [List.drop_drop, Nat.add_comm]
              · rw [r7, s4, p5]
                simp [Nat.add_assoc]

/-- The errors of `phasesRead` are always `TranscriptRead`. -/
theorem phasesRead_error {F G : Type} [OfNat F 0] :
    ∀ (counts : List (Nat × Nat)) (ts : TS F G) (e : VError),
    phasesRead counts ts = Except.error e → e = VError.TranscriptRead := by
  intro counts
  induction counts with
  | nil => intro ts e h; simp [phasesRead] at h
  | cons nm rest ih =>
      intro ts e h
      obtain ⟨n, m⟩ := nm
      simp only [phasesRead] at h
      cases hpts : TS.readNPoints n ts with
      | error e' =>
          rw [hpts] at h
          simp only [Except.error.injEq] at h
          subst h
          exact readNPoints_error n ts e' hpts
      | ok ptsp =>
          obtain ⟨pts, ts'⟩ := ptsp
          rw [hpts] at h
          simp only [] at h
          cases hrec : phasesRead rest (TS.squeezeN m ts').2 with
          | error e' =>
              rw [hrec] at h
              simp only [Except.error.injEq] at h
              subst h
              exact ih _ _ hrec
          | ok pcs =>
              obtain ⟨⟨ps', cs'⟩, ts'''⟩ := pcs
              rw [hrec] at h
              exact absurd h (by simp)

/-- The canonical transcript interaction sequence claimed by the spec
(§4.4): initial state, statements, phases, `alpha`, quotients, `z`,
evaluations, `mu`, `gamma`, `w`, `z_prime`, `w_prime` — expressed over the
fields of the proof the reader produced. -/
def canonicalTrace {F G : Type} (P : Protocol F G) (pr : Proof F G) :
    List (TEvent F G) :=
  [TEvent.common P.transcript_initial_state]
    ++ pr.statements.join.map TEvent.common
    ++ phaseTrace (P.num_auxiliary.zip P.num_challenge) pr.auxiliaries pr.challenges
    ++ [TEvent.squeeze pr.alpha]
    ++ pr.quotients.map TEvent.readPoint
    ++ [TEvent.squeeze pr.z]
    ++ pr.evaluations.map TEvent.readScalar
    ++ [TEvent.squeeze pr.mu, TEvent.squeeze pr.gamma, TEvent.readPoint pr.w,
        TEvent.squeeze pr.z_prime, TEvent.readPoint pr.w_prime]

/-- `TS.squeeze` as an explicit pair. -/
theorem squeeze_eq {F G : Type} [OfNat F 0] (ts : TS F G) :
    ts.squeeze = (ts.sq.getD ts.k 0,
      { ts with
          k := ts.k + 1
          trace := ts.trace ++ [TEvent.squeeze (ts.sq.getD ts.k 0)] }) := rfl

/-- First projection of a squeeze: the challenge value. -/
theorem squeeze_1 {F G : Type} [OfNat F 0] (ts : TS F G) :
    (ts.squeeze).1 = ts.sq.getD ts.k 0 := rfl

/-- Second projection of a squeeze: the updated transcript state. -/
theorem squeeze_2 {F G : Type} [OfNat F 0] (ts : TS F G) :
    (ts.squeeze).2 = { ts with
      k := ts.k + 1
      trace := ts.trace ++ [TEvent.squeeze (ts.sq.getD ts.k 0)] } := rfl


/-- Inversion for a successful bind. -/
theorem OE.bind_eq_ok {E A B : Type} (x : OE E A) (f : A → OE E B) (b : B) :
    OE.bind x f = OE.ok b ↔ ∃ a, x = OE.ok a ∧ f a = OE.ok b := by
  cases x with
  | none => simp [OE.bind, OE.ok]
  | some ex =>
      cases ex with
      | error e => simp [OE.bind, OE.ok]
      | ok a => simp [OE.bind, OE.ok]

/-- Inversion for a failing bind. -/
theorem OE.bind_eq_fail {E A B : Type} (x : OE E A) (f : A → OE E B) (e : E) :
    OE.bind x f = OE.fail e ↔
      x = OE.fail e ∨ ∃ a, x = OE.ok a ∧ f a = OE.fail e := by
  cases x with
  | none => simp [OE.bind, OE.fail, OE.ok]
  | some ex =>
      cases ex with
      | error e' => simp [OE.bind, OE.fail, OE.ok]
      | ok a => simp [OE.bind, OE.fail, OE.ok]

/-- Inversion for a panicking bind. -/
theorem OE.bind_eq_panic {E A B : Type} (x : OE E A) (f : A → OE E B) :
    OE.bind x f = OE.panic ↔
      x = OE.panic ∨ ∃ a, x = OE.ok a ∧ f a = OE.panic := by
  cases x with
  | none => simp [OE.bind, OE.panic, OE.ok]
  | some ex =>
      cases ex with
      | error e' => simp [OE.bind, OE.panic, OE.ok, OE.fail]
      | ok a => simp [OE.bind, OE.panic, OE.ok]

/-- Inversion lemmas for the atomic `OE` values. -/
theorem OE.lift_eq_ok {E A : Type} (x : Except E A) (a : A) :
    OE.lift x = OE.ok a ↔ x = Except.ok a := by
  simp [OE.lift, OE.ok]

theorem OE.lift_eq_fail {E A : Type} (x : Except E A) (e : E) :
    OE.lift x = OE.fail e ↔ x = Except.error e := by
  simp [OE.lift, OE.fail]

theorem OE.lift_ne_panic {E A : Type} (x : Except E A) :
    ¬(OE.lift x = OE.panic) := by
  simp [OE.lift, OE.panic]

theorem OE.ofOption_eq_ok {E A : Type} (x : Option A) (a : A) :
    OE.ofOption (E := E) x = OE.ok a ↔ x = some a := by
  cases x <;> simp [OE.ofOption, OE.ok]

theorem OE.ofOption_eq_panic {E A : Type} (x : Option A) :
    OE.ofOption (E := E) x = OE.panic ↔ x = none := by
  cases x <;> simp [OE.ofOption, OE.panic]

theorem OE.ofOption_ne_fail {E A : Type} (x : Option A) (e : E) :
    ¬(OE.ofOption x = OE.fail e) := by
  cases x <;> simp [OE.ofOption, OE.fail]

theorem OE.ok_ne_fail {E A : Type} (a : A) (e : E) : ¬(OE.ok a = OE.fail e) := by
  simp [OE.ok, OE.fail]

theorem OE.fail_ne_ok {E A : Type} (a : A) (e : E) : ¬(OE.fail e = OE.ok a) := by
  simp [OE.ok, OE.fail]

theorem OE.panic_ne_ok {E A : Type} (a : A) : ¬(OE.panic (E := E) = OE.ok a) := by
  simp [OE.ok, OE.panic]

theorem OE.panic_ne_fail {E A : Type} (e : E) :
    ¬(OE.panic (E := E) (A := A) = OE.fail e) := by
  simp [OE.fail, OE.panic]

theorem OE.ok_inj {E A : Type} (a b : A) : OE.ok (E := E) a = OE.ok b ↔ a = b := by
  simp [OE.ok]

theorem OE.fail_inj {E A : Type} (e e' : E) :
    OE.fail (A := A) e = OE.fail e' ↔ e = e' := by
  simp [OE.fail]

/-- `read_ec_point` succeeds exactly on a non-empty point stream. -/
theorem readPoint_ok {F G : Type} (ts ts2 : TS F G) (p : G)
    (h : ts.readPoint = Except.ok (p, ts2)) :
    ∃ r, ts.rp = p :: r ∧
      ts2 = { ts with rp := r, trace := ts.trace ++ [TEvent.readPoint p] } := by
  unfold TS.readPoint at h
  cases hrp : ts.rp with
  | nil => rw [hrp] at h; exact absurd h (by simp)
  | cons x r =>
      rw [hrp] at h
      simp only [Except.ok.injEq, Prod.mk.injEq] at h
      obtain ⟨hx, hts⟩ := h
      subst hx
      exact ⟨r, rfl, hts.symm⟩

/-- Claim C4: whenever the proof reader succeeds, the transcript trace it
leaves behind is exactly the canonical sequence of §4.4 — the initial state
as a common scalar, every statement scalar in protocol order, per-phase point
reads followed by challenge squeezes, `alpha`, `max_degree − 1` quotient
points, `z`, `|protocol.evaluations|` scalars, `mu`, `gamma`, `w`, `z_prime`,
`w_prime` — and nothing else. -/
theorem C4_transcript_canonical_order {F G : Type} [Field F] (P : Protocol F G)
    (st : List (List F)) (ts : TS F G) (pr : Proof F G) (ts' : TS F G)
    (h : Proof.read P st (ts.commonScalar P.transcript_initial_state) =
      OE.ok (pr, ts')) :
    ts'.trace = ts.trace ++ canonicalTrace P pr ∧
    pr.statements = st ∧
    pr.auxiliaries.length = ((P.num_auxiliary.zip P.num_challenge).map Prod.fst).sum ∧
    pr.challenges.length = ((P.num_auxiliary.zip P.num_challenge).map Prod.snd).sum ∧
    pr.quotients.length = ((P.relations.map Expression.degree).max?.getD 0) - 1 ∧
    pr.evaluations.length = P.evaluations.length := by
  unfold Proof.read at h
  split at h
  · exact absurd h (OE.fail_ne_ok _ _)
  next hlen =>
    rw [OE.bind_eq_ok] at h
    obtain ⟨act, hact, h⟩ := h
    rw [OE.lift_eq_ok] at hact
    rw [OE.bind_eq_ok] at h
    obtain ⟨maxDegree, hmax, h⟩ := h
    rw [OE.ofOption_eq_ok] at hmax
    split at h
    · exact absurd h (OE.panic_ne_ok _)
    next hdeg =>
      rw [OE.bind_eq_ok] at h
      obtain ⟨qt, hqt, h⟩ := h
      rw [OE.lift_eq_ok] at hqt
      rw [OE.bind_eq_ok] at h
      obtain ⟨et, het, h⟩ := h
      rw [OE.lift_eq_ok] at het
      rw [OE.bind_eq_ok] at h
      obtain ⟨wt, hwt, h⟩ := h
      rw [OE.lift_eq_ok] at hwt
      rw [OE.bind_eq_ok] at h
      obtain ⟨wt2, hwt2, h⟩ := h
      rw [OE.lift_eq_ok] at hwt2
      rw [OE.ok_inj, Prod.mk.injEq] at h
      obtain ⟨hpr, hts'⟩ := h
      -- decompose the transcript effects stage by stage
      rw [foldl_statements] at hact
      obtain ⟨⟨auxs, challs⟩, act2⟩ := act
      obtain ⟨q, tsq⟩ := qt
      obtain ⟨evs, tse⟩ := et
      obtain ⟨wv, tsw⟩ := wt
      obtain ⟨wpv, tsw2⟩ := wt2
      obtain ⟨f1, f2, f3, f4, f5, f6, f7⟩ :=
        phasesRead_ok (P.num_auxiliary.zip P.num_challenge) _ _ _ _ hact
      obtain ⟨q1, q2, q3, q4, q5, q6, q7⟩ := readNPoints_ok _ _ _ _ hqt
      obtain ⟨e1, e2, e3, e4, e5, e6, e7⟩ := readNScalars_ok _ _ _ _ het
      obtain ⟨rw1, hw1, hw2⟩ := readPoint_ok _ _ _ hwt
      obtain ⟨rw2, hw3, hw4⟩ := readPoint_ok _ _ _ hwt2
      subst hpr
      subst hts'
      subst hw2
      subst hw4
      refine ⟨?_, rfl, by simpa using f4, by simpa using f5, by simp [hmax, q7], e7⟩
      simp only [squeeze_2, squeeze_1] at e6 q6 ⊢
      simp only [TS.commonScalar] at f1
      simp only [canonicalTrace]
      rw [e6, q6, f1]
      simp [List.append_assoc]

/-! ### A concrete example instance (ℚ scalars, ℕ as opaque point type) -/

/-- Example protocol: one preprocessed poly (index 0), one statement column
(index 1), one auxiliary poly (index 2), a degree-2 relation, queries on
polys 0, 2 and the vanishing index 5. -/
def exP : Protocol ℚ ℕ :=
  { domain := { k := 1, omega := -1 }
    preprocessed := [7]
    num_statement := 1
    num_auxiliary := [1]
    num_challenge := [0]
    relations := [Expression.product (Expression.query ⟨0, 0⟩)
      (Expression.query ⟨0, 0⟩)]
    queries := [⟨0, 0⟩, ⟨2, 0⟩, ⟨2, 1⟩, ⟨5, 0⟩]
    evaluations := [⟨0, 0⟩, ⟨2, 0⟩, ⟨2, 1⟩]
    vanishing_poly := 5
    transcript_initial_state := 1 }

/-- Example statements (the single column holds three values). -/
def exStatements : List (List ℚ) :=
  [[3, 5, 9]]

/-- Example transcript: three scalars, four points, five squeezes. -/
def exTS : TS ℚ ℕ :=
  { rs := [4, 6, 8], rp := [11, 13, 17, 19], sq := [10, 2, 3, 4, 5], k := 0,
    trace := [] }

/-- The proof the reader extracts from `exTS` under `exP`. -/
def exProof : Proof ℚ ℕ :=
  { statements := [[3, 5, 9]]
    auxiliaries := [11]
    challenges := []
    alpha := 10
    quotients := [13]
    z := 2
    evaluations := [4, 6, 8]
    mu := 3
    gamma := 4
    w := 17
    z_prime := 5
    w_prime := 19 }

/-- The transcript state after the reader finishes on the example. -/
def exTS1 : TS ℚ ℕ :=
  { rs := [], rp := [], sq := [10, 2, 3, 4, 5], k := 5,
    trace := [TEvent.common 1, TEvent.common 3, TEvent.common 5, TEvent.common 9,
      TEvent.readPoint 11, TEvent.squeeze 10, TEvent.readPoint 13,
      TEvent.squeeze 2, TEvent.readScalar 4, TEvent.readScalar 6,
      TEvent.readScalar 8, TEvent.squeeze 3, TEvent.squeeze 4,
      TEvent.readPoint 17, TEvent.squeeze 5, TEvent.readPoint 19] }

/-- Witness for C4: the reader succeeds on the concrete example and its
trace is the canonical sequence. -/
theorem C4_transcript_canonical_order_witness :
    Proof.read exP exStatements (exTS.commonScalar exP.transcript_initial_state) =
      OE.ok (exProof, exTS1) ∧
    exTS1.trace = exTS.trace ++ canonicalTrace exP exProof :=
  ⟨by rfl,
   (C4_transcript_canonical_order exP exStatements exTS exProof exTS1 (by rfl)).1⟩

/-! ### Error characterization (claims C2, C3) -/

/-- `read_ec_point` only fails with `TranscriptRead`. -/
theorem readPoint_error {F G : Type} (ts : TS F G) (e : VError)
    (h : ts.readPoint = Except.error e) : e = VError.TranscriptRead := by
  unfold TS.readPoint at h
  cases hrp : ts.rp with
  | nil => rw [hrp] at h; simpa using h.symm
  | cons x r => rw [hrp] at h; exact absurd h (by simp)

/-- `mapE` fails only on an element that fails. -/
theorem mapE_error {A B E : Type} (f : A → Except E B) :
    ∀ (l : List A) (e : E), mapE f l = Except.error e →
    ∃ a ∈ l, f a = Except.error e := by
  intro l
  induction l with
  | nil => intro e h; simp [mapE] at h
  | cons a rest ih =>
      intro e h
      unfold mapE at h
      cases hfa : f a with
      | error e' =>
          rw [hfa] at h
          simp only [Except.error.injEq] at h
          subst h
          exact ⟨a, List.mem_cons_self a rest, hfa⟩
      | ok b =>
          rw [hfa] at h
          simp only [] at h
          cases hrec : mapE f rest with
          | error e' =>
              rw [hrec] at h
              simp only [Except.error.injEq] at h
              subst h
              obtain ⟨a', ha', hfa'⟩ := ih _ hrec
              exact ⟨a', List.mem_cons_of_mem a ha', hfa'⟩
          | ok bs => rw [hrec] at h; exact absurd h (by simp)

/-- The errors of `Expression::evaluate` (with the handlers of
`Proof::evaluations`) are exactly a `MissingQuery` for a key absent from the
table or a `MissingChallenge` for an index out of range. -/
theorem evalExpr_error {F : Type} [Field F] (cpe : CommonPolyEval F)
    (table : List (Query × F)) (challenges : List F) :
    ∀ (expr : Expression F) (e : VError),
    evalExpr cpe table challenges expr = Except.error e →
    (∃ q, e = VError.MissingQuery q ∧ alookup table q = none) ∨
    (∃ i, e = VError.MissingChallenge i ∧ challenges.get? i = none) := by
  intro expr
  induction expr with
  | constant c => intro e h; simp [evalExpr] at h
  | common cp => intro e h; simp [evalExpr] at h
  | query q =>
      intro e h
      unfold evalExpr at h
      cases hq : alookup table q with
      | some v => rw [hq] at h; exact absurd h (by simp)
      | none =>
          rw [hq] at h
          simp only [Except.error.injEq] at h
          exact Or.inl ⟨q, h.symm, hq⟩
  | challenge i =>
      intro e h
      unfold evalExpr at h
      cases hc : challenges.get? i with
      | some v => rw [hc] at h; exact absurd h (by simp)
      | none =>
          rw [hc] at h
          simp only [Except.error.injEq] at h
          exact Or.inr ⟨i, h.symm, hc⟩
  | negated a iha =>
      intro e h
      unfold evalExpr at h
      cases ha : evalExpr cpe table challenges a with
      | error e' =>
          rw [ha] at h
          simp only [Except.error.injEq] at h
          subst h
          exact iha _ ha
      | ok v => rw [ha] at h; exact absurd h (by simp)
  | sum a b iha ihb =>
      intro e h
      unfold evalExpr at h
      cases ha : evalExpr cpe table challenges a with
      | error e' =>
          rw [ha] at h
          simp only [Except.error.injEq] at h
          subst h
          exact iha _ ha
      | ok v =>
          rw [ha] at h
          simp only [] at h
          cases hb : evalExpr cpe table challenges b with
          | error e' =>
              rw [hb] at h
              simp only [Except.error.injEq] at h
              subst h
              exact ihb _ hb
          | ok v' => rw [hb] at h; exact absurd h (by simp)
  | product a b iha ihb =>
      intro e h
      unfold evalExpr at h
      cases ha : evalExpr cpe table challenges a with
      | error e' =>
          rw [ha] at h
          simp only [Except.error.injEq] at h
          subst h
          exact iha _ ha
      | ok v =>
          rw [ha] at h
          simp only [] at h
          cases hb : evalExpr cpe table challenges b with
          | error e' =>
              rw [hb] at h
              simp only [Except.error.injEq] at h
              subst h
              exact ihb _ hb
          | ok v' => rw [hb] at h; exact absurd h (by simp)
  | scaled a c iha =>
      intro e h
      unfold evalExpr at h
      cases ha : evalExpr cpe table challenges a with
      | error e' =>
          rw [ha] at h
          simp only [Except.error.injEq] at h
          subst h
          exact iha _ ha
      | ok v => rw [ha] at h; exact absurd h (by simp)

/-- The errors of `Proof::evaluations` come from a relation that references a
missing query or challenge. -/
theorem evaluationsTable_error {F G : Type} [Field F] (pr : Proof F G)
    (P : Protocol F G) (cpe : CommonPolyEval F) (e : VError)
    (h : Proof.evaluationsTable pr P cpe = Except.error e) :
    (∃ q, e = VError.MissingQuery q ∧
      alookup (baseEvalTable pr P cpe) q = none) ∨
    (∃ i, e = VError.MissingChallenge i ∧ pr.challenges.get? i = none) := by
  unfold Proof.evaluationsTable at h
  cases hm : mapE (fun ar =>
      (evalExpr cpe (baseEvalTable pr P cpe) pr.challenges ar.2).map
        (fun v => ar.1 * v))
      ((powersL pr.alpha P.relations.length).reverse.zip P.relations) with
  | error e' =>
      rw [hm] at h
      simp only [Except.error.injEq] at h
      subst h
      obtain ⟨ar, _, har⟩ := mapE_error _ _ _ hm
      cases hev : evalExpr cpe (baseEvalTable pr P cpe) pr.challenges ar.2 with
      | error e'' =>
          rw [hev] at har
          simp only [Except.map, Except.error.injEq] at har
          subst har
          exact evalExpr_error cpe _ _ _ _ hev
      | ok v =>
          rw [hev] at har
          exact absurd har (by simp [Except.map])
  | ok vals => rw [hm] at h; exact absurd h (by simp)

/-- `Proof::read` returns `InvalidInstances` exactly on a statement-count
mismatch, for every transcript state. -/
theorem read_fail_invalid_iff {F G : Type} [Field F] (P : Protocol F G)
    (st : List (List F)) (ts : TS F G) :
    Proof.read P st ts = OE.fail VError.InvalidInstances ↔
      st.length ≠ P.num_statement := by
  constructor
  · intro h
    by_contra hlen
    unfold Proof.read at h
    rw [if_neg (fun hc => hc hlen)] at h
    rw [OE.bind_eq_fail] at h
    rcases h with h | ⟨act, hact, h⟩
    · rw [OE.lift_eq_fail] at h
      exact absurd (phasesRead_error _ _ _ h) (by simp)
    · rw [OE.bind_eq_fail] at h
      rcases h with h | ⟨maxD, hmax, h⟩
      · exact OE.ofOption_ne_fail _ _ h
      · split at h
        · exact OE.panic_ne_fail _ h
        · rw [OE.bind_eq_fail] at h
          rcases h with h | ⟨qt, hqt, h⟩
          · rw [OE.lift_eq_fail] at h
            exact absurd (readNPoints_error _ _ _ h) (by simp)
          · rw [OE.bind_eq_fail] at h
            rcases h with h | ⟨et, het, h⟩
            · rw [OE.lift_eq_fail] at h
              exact absurd (readNScalars_error _ _ _ h) (by simp)
            · rw [OE.bind_eq_fail] at h
              rcases h with h | ⟨wt, hwt, h⟩
              · rw [OE.lift_eq_fail] at h
                exact absurd (readPoint_error _ _ h) (by simp)
              · rw [OE.bind_eq_fail] at h
                rcases h with h | ⟨wt2, hwt2, h⟩
                · rw [OE.lift_eq_fail] at h
                  exact absurd (readPoint_error _ _ h) (by simp)
                · exact OE.ok_ne_fail _ _ h
  · intro hlen
    unfold Proof.read
    rw [if_pos hlen]

/-- `verify_proof` returns `InvalidInstances` exactly on a statement-count
mismatch. -/
theorem verify_fail_invalid_iff {F G : Type} [Field F] [DecidableEq G]
    (order : List Rot) (P : Protocol F G) (st : List (List F)) (ts : TS F G) :
    verifyProofOrd order P st ts = OE.fail VError.InvalidInstances ↔
      st.length ≠ P.num_statement := by
  constructor
  · intro h
    unfold verifyProofOrd at h
    rw [OE.bind_eq_fail] at h
    rcases h with h | ⟨prts, hread, h⟩
    · exact (read_fail_invalid_iff P st _).mp h
    · exfalso
      rw [OE.bind_eq_fail] at h
      rcases h with h | ⟨commitments, hc, h⟩
      · exact OE.ofOption_ne_fail _ _ h
      · rw [OE.bind_eq_fail] at h
        rcases h with h | ⟨evaluations, he, h⟩
        · rw [OE.lift_eq_fail] at h
          rcases evaluationsTable_error _ _ _ _ h with ⟨q, hq, _⟩ | ⟨i, hi, _⟩
          · exact absurd hq (by simp)
          · exact absurd hi (by simp)
        · rw [OE.bind_eq_fail] at h
          rcases h with h | ⟨sets, hs, h⟩
          · exact OE.ofOption_ne_fail _ _ h
          · rw [OE.bind_eq_fail] at h
            rcases h with h | ⟨maxPolys, hm, h⟩
            · exact OE.ofOption_ne_fail _ _ h
            · rw [OE.bind_eq_fail] at h
              rcases h with h | ⟨msms, hmsms, h⟩
              · exact OE.ofOption_ne_fail _ _ h
              · split at h
                · exact OE.ok_ne_fail _ _ h
                · exact OE.panic_ne_fail _ h
  · intro hlen
    unfold verifyProofOrd
    have : Proof.read P st (ts.commonScalar P.transcript_initial_state) =
        OE.fail VError.InvalidInstances := (read_fail_invalid_iff P st _).mpr hlen
    rw [this]
    rfl

/-- Claim C3 (amended): `verify_proof` returns `InvalidInstances` iff the
number of statement slices differs from `protocol.num_statement` — the code
never inspects the inner slice lengths — and when it does, the error is
produced by the count check alone: it is returned for *every* transcript
state, in particular before any squeeze is performed. -/
theorem C3_invalid_instances_iff {F G : Type} [Field F] [DecidableEq G]
    (P : Protocol F G) (st : List (List F)) (ts : TS F G) :
    (verifyProof P st ts = OE.fail VError.InvalidInstances ↔
      st.length ≠ P.num_statement) ∧
    (st.length ≠ P.num_statement →
      ∀ ts' : TS F G, verifyProof P st ts' = OE.fail VError.InvalidInstances) := by
  refine ⟨verify_fail_invalid_iff _ P st ts, fun hlen ts' => ?_⟩
  exact (verify_fail_invalid_iff _ P st ts').mpr hlen

/-- Witness for C3 (amended): on the concrete example with a wrong statement
count the verifier fails with `InvalidInstances`, and with the right count it
does not. -/
theorem C3_invalid_instances_iff_witness :
    verifyProof exP [] exTS = OE.fail VError.InvalidInstances ∧
    verifyProof exP exStatements exTS ≠ OE.fail VError.InvalidInstances :=
  ⟨(C3_invalid_instances_iff exP [] exTS).1.mpr (by decide),
   fun h => absurd ((C3_invalid_instances_iff exP exStatements exTS).1.mp h)
     (by decide)⟩

/-- The `(lhs, rhs)` pair the example run hands to the strategy. -/
def exLhs : MSM ℚ ℕ :=
  ⟨-2939/42, [(12, 7), (4, 13), (1/7, 11), (-3, 17), (5, 19)]⟩

/-- The right-hand MSM of the example run: `base(w_prime)`. -/
def exRhs : MSM ℚ ℕ :=
  ⟨0, [(1, 19)]⟩

/-- Counterexample for C3 as stated: the example statements have the right
count but an inner slice of length 3, which exceeds every length the
protocol knows (its domain has `n = 2^1 = 2` rows, so at most 2 Lagrange
indices are meaningful) — yet `verify_proof` does not return
`InvalidInstances`; it runs to completion.  The code performs no inner-length
check at all. -/
theorem C3_counterexample :
    exStatements.length = exP.num_statement ∧
    2 ^ exP.domain.k < (exStatements.headD []).length ∧
    verifyProof exP exStatements exTS = OE.ok (exProof, exLhs, exRhs) ∧
    verifyProof exP exStatements exTS ≠ OE.fail VError.InvalidInstances := by
  refine ⟨rfl, by decide, by with_unfolding_all rfl, ?_⟩
  intro hcontra
  rw [show verifyProof exP exStatements exTS = OE.ok (exProof, exLhs, exRhs)
    by with_unfolding_all rfl] at hcontra
  exact OE.ok_ne_fail _ _ hcontra

/-! ### The γ-fold combination (claim C5) -/

/-- `mapO` preserves length. -/
theorem mapO_length {A B : Type} (f : A → Option B) :
    ∀ (l : List A) (l' : List B), mapO f l = some l' → l'.length = l.length := by
  intro l
  induction l with
  | nil => intro l' h; simp [mapO] at h; simp [← h]
  | cons a rest ih =>
      intro l' h
      unfold mapO at h
      cases hfa : f a with
      | none => rw [hfa] at h; exact absurd h (by simp)
      | some b =>
          rw [hfa] at h
          simp only [] at h
          cases hrec : mapO f rest with
          | none => rw [hrec] at h; exact absurd h (by simp)
          | some bs =>
              rw [hrec] at h
              simp only [Option.some.injEq] at h
              subst h
              simp [ih _ hrec]

/-- A left fold of `MSM.add` over a list equals the monoid sum. -/
theorem foldl_add_eq_sum {F G : Type} [Field F] :
    ∀ (rest : List (MSM F G)) (t : MSM F G), rest.foldl MSM.add t = t + rest.sum := by
  intro rest
  induction rest with
  | nil => intro t; simp
  | cons x r ih =>
      intro t
      have : MSM.add t x = t + x := rfl
      simp only [List.foldl_cons, this, ih, List.sum_cons]
      rw [add_assoc]

/-- Zipping a list of MSMs against the reversed powers of γ and summing gives
the descending-power linear combination `Σᵢ msmsᵢ · γ^(n−1−i)`. -/
theorem zip_rev_smul_sum {F G : Type} [Field F] (g : F) :
    ∀ (xs : List (MSM F G)) (n : Nat), xs.length = n →
    ((xs.zip (powersL g n).reverse).map (fun mg => mg.1.smul mg.2)).sum =
      ((List.range n).map (fun i =>
        (xs.getD i (MSM.scalar 0)).smul (g ^ (n - 1 - i)))).sum := by
  intro xs
  induction xs with
  | nil =>
      intro n hn
      subst hn
      simp [powersL]
  | cons x rest ih =>
      intro n hn
      subst hn
      have hrev : (powersL g (rest.length + 1)).reverse =
          g ^ rest.length :: (powersL g rest.length).reverse := by
        simp [powersL, List.range_succ]
      simp only [List.length_cons] at hrev ⊢
      rw [hrev]
      simp only [List.zip_cons_cons, List.map_cons, List.sum_cons]
      rw [ih rest.length rfl]
      rw [List.range_succ_eq_map]
      simp only [List.map_cons, List.sum_cons, List.map_map]
      congr 1
      apply congrArg
      apply List.map_congr_left
      intro i hi
      simp only [Function.comp_apply, List.getD_cons_succ]
      have he : rest.length - 1 - i = rest.length + 1 - 1 - i.succ := by omega
      rw [he]

/-- Claim C5: whenever `verify_proof` reaches the strategy, the pair it hands
over is exactly `lhs = f + rhs·z′` and `rhs = base(w′)`, where
`f = Σ_{s=0}^{S-1} γ^{S-1-s} · MSM_s − base(w) · z_s(first set)`, the sets in
first-encounter order and `MSM_s` the per-set MSMs. -/
theorem C5_combination {F G : Type} [Field F] [DecidableEq G] (order : List Rot)
    (P : Protocol F G) (st : List (List F)) (ts : TS F G)
    (pr : Proof F G) (lhs rhs : MSM F G)
    (commitments : List (Nat × MSM F G)) (evaluations : List (Query × F))
    (s0 : ISet F) (stail : List (ISet F)) (maxPolys : Nat) (msms : List (MSM F G))
    (h : verifyProofOrd order P st ts = OE.ok (pr, lhs, rhs))
    (hC : Proof.commitments pr P (CommonPolyEval.new P.domain pr.z) =
      some commitments)
    (hE : Proof.evaluationsTable pr P (CommonPolyEval.new P.domain pr.z) =
      Except.ok evaluations)
    (hS : intermediateSetsOrd order P pr.z pr.z_prime = some (s0 :: stail))
    (hmx : ((s0 :: stail).map (fun s => s.polys.length)).max? = some maxPolys)
    (hM : mapO (fun s => s.msm commitments evaluations (powersL pr.mu maxPolys))
      (s0 :: stail) = some msms) :
    rhs = MSM.base pr.w_prime ∧
    lhs = ((((List.range (stail.length + 1)).map (fun i =>
        (msms.getD i (MSM.scalar 0)).smul
          (pr.gamma ^ (stail.length + 1 - 1 - i)))).sum).sub
        ((MSM.base pr.w).smul s0.z_s)).add
      ((MSM.base pr.w_prime).smul pr.z_prime) := by
  unfold verifyProofOrd at h
  rw [OE.bind_eq_ok] at h
  obtain ⟨prts, hread, h⟩ := h
  rw [OE.bind_eq_ok] at h
  obtain ⟨C', hC', h⟩ := h
  rw [OE.ofOption_eq_ok] at hC'
  rw [OE.bind_eq_ok] at h
  obtain ⟨E', hE', h⟩ := h
  rw [OE.lift_eq_ok] at hE'
  rw [OE.bind_eq_ok] at h
  obtain ⟨sets', hS', h⟩ := h
  rw [OE.ofOption_eq_ok] at hS'
  rw [OE.bind_eq_ok] at h
  obtain ⟨mx', hmx', h⟩ := h
  rw [OE.ofOption_eq_ok] at hmx'
  rw [OE.bind_eq_ok] at h
  obtain ⟨msms', hM', h⟩ := h
  rw [OE.ofOption_eq_ok] at hM'
  -- analyse the final match to extract `pr = prts.1` and the components
  cases hsets'' : sets' with
  | nil => rw [hsets''] at h; exact absurd h (OE.panic_ne_ok _)
  | cons t0 ttail =>
      rw [hsets''] at h
      cases hzm : (msms'.zip ((powersL prts.1.gamma
          (t0 :: ttail).length).reverse)).map (fun mg => mg.1.smul mg.2) with
      | nil => rw [hzm] at h; exact absurd h (OE.panic_ne_ok _)
      | cons m0 mtail =>
          rw [hzm] at h
          rw [OE.ok_inj] at h
          obtain ⟨hpr, hlr⟩ := Prod.mk.injEq .. ▸ h
          obtain ⟨hlhs, hrhs⟩ := Prod.mk.injEq .. ▸ hlr
          subst hpr
          -- identify the internal values with the hypothesised ones
          rw [hC] at hC'
          injection hC' with hC'
          subst hC'
          rw [hE] at hE'
          injection hE' with hE'
          subst hE'
          rw [hS] at hS'
          injection hS' with hS'
          rw [← hS'] at hsets''
          injection hsets'' with ht0 httail
          subst ht0
          subst httail
          subst hS'
          rw [hmx] at hmx'
          injection hmx' with hmx'
          subst hmx'
          rw [hM] at hM'
          injection hM' with hM'
          subst hM'
          refine ⟨hrhs.symm, ?_⟩
          rw [← hlhs]
          have hlen : msms.length = stail.length + 1 := by
            simpa using mapO_length _ _ _ hM
          have hfold := foldl_add_eq_sum mtail m0
          have hsum := zip_rev_smul_sum (G := G) prts.1.gamma msms
            (stail.length + 1) hlen
          simp only [List.length_cons] at hzm
          rw [hzm] at hsum
          rw [List.sum_cons] at hsum
          rw [hfold, hsum]

/-- The commitments map of the example run. -/
def exCommitments : List (Nat × MSM ℚ ℕ) :=
  [(5, ⟨0, [(1, 13)]⟩), (0, ⟨0, [(1, 7)]⟩), (2, ⟨0, [(1, 11)]⟩)]

/-- The evaluation table of the example run. -/
def exEvals : List (Query × ℚ) :=
  [(⟨5, 0⟩, 16/3), (⟨2, 1⟩, 8), (⟨2, 0⟩, 6), (⟨0, 0⟩, 4), (⟨1, 0⟩, 31/2)]

/-- The first intermediate set of the example run (rotation set `{0}`). -/
def exSet0 : ISet ℚ :=
  { polys := [0, 5], rotations := [0], z_s := 3, commitment_coeff := none,
    evaluation_coeffs := [1/3], remainder_coeff := 3 }

/-- The second intermediate set of the example run (rotation set `{0, 1}`). -/
def exSet1 : ISet ℚ :=
  { polys := [2], rotations := [0, 1], z_s := 21, commitment_coeff := some (1/7),
    evaluation_coeffs := [1/6, -1/14], remainder_coeff := 3/2 }

/-- The per-set MSMs of the example run. -/
def exMsms : List (MSM ℚ ℕ) :=
  [⟨-52/3, [(3, 7), (1, 13)]⟩, ⟨-9/14, [(1/7, 11)]⟩]

/-- Witness for C5: on the concrete example the strategy receives exactly the
γ-descending combination. -/
theorem C5_combination_witness :
    exRhs = MSM.base exProof.w_prime ∧
    exLhs = ((((List.range 2).map (fun i =>
        (exMsms.getD i (MSM.scalar 0)).smul
          (exProof.gamma ^ (2 - 1 - i)))).sum).sub
        ((MSM.base exProof.w).smul exSet0.z_s)).add
      ((MSM.base exProof.w_prime).smul exProof.z_prime) :=
  C5_combination (superset exP.queries) exP exStatements exTS exProof exLhs exRhs
    exCommitments exEvals exSet0 [exSet1] 2 exMsms
    (by with_unfolding_all rfl) (by with_unfolding_all rfl)
    (by with_unfolding_all rfl) (by with_unfolding_all rfl)
    (by with_unfolding_all rfl) (by with_unfolding_all rfl)

/-! ### Quotient evaluation (claim C8) -/

/-- Inversion of a successful `mapE` on a cons cell. -/
theorem mapE_ok_cons {A B E : Type} (f : A → Except E B) (a : A) (l : List A)
    (vals : List B) (h : mapE f (a :: l) = Except.ok vals) :
    ∃ v vs, f a = Except.ok v ∧ mapE f l = Except.ok vs ∧ vals = v :: vs := by
  unfold mapE at h
  cases hfa : f a with
  | error e => rw [hfa] at h; exact absurd h (by simp)
  | ok v =>
      rw [hfa] at h
      simp only [] at h
      cases hrec : mapE f l with
      | error e => rw [hrec] at h; exact absurd h (by simp)
      | ok vs =>
          rw [hrec] at h
          simp only [Except.ok.injEq] at h
          exact ⟨v, vs, rfl, rfl, h.symm⟩

/-- `mapE` preserves length on success. -/
theorem mapE_ok_length {A B E : Type} (f : A → Except E B) :
    ∀ (l : List A) (vals : List B), mapE f l = Except.ok vals →
    vals.length = l.length := by
  intro l
  induction l with
  | nil => intro vals h; simp only [mapE, Except.ok.injEq] at h; simp [← h]
  | cons a rest ih =>
      intro vals h
      obtain ⟨v, vs, _, hvs, hvals⟩ := mapE_ok_cons f a rest vals h
      subst hvals
      simp [ih vs hvs]

/-- The α-scaled relation fold of `Proof::evaluations` in terms of the plain
relation values. -/
theorem mapE_scale {A E F : Type} [Field F] (g : A → Except E F) :
    ∀ (ps : List F) (rels : List A) (vals : List F),
    mapE g rels = Except.ok vals →
    mapE (fun ar => (g ar.2).map (fun v => ar.1 * v)) (ps.zip rels) =
    Except.ok ((ps.zip vals).map (fun pv => pv.1 * pv.2)) := by
  intro ps
  induction ps with
  | nil => intro rels vals _; simp [mapE]
  | cons p prest ih =>
      intro rels vals h
      cases rels with
      | nil =>
          simp only [mapE, Except.ok.injEq] at h
          subst h
          simp [mapE]
      | cons r rrest =>
          obtain ⟨v, vs, hv, hvs, hvals⟩ := mapE_ok_cons g r rrest vals h
          subst hvals
          simp only [List.zip_cons_cons, List.map_cons]
          unfold mapE
          rw [hv]
          rw [show Except.map (fun v0 => p * v0) (Except.ok (ε := E) v) =
            Except.ok (p * v) from rfl]
          rw [ih rrest vs hvs]

/-- Descending-power linear combination for field scalars: zipping the
reversed powers of `a` against a value list and summing the products. -/
theorem zip_rev_mul_sum {F : Type} [Field F] (a : F) :
    ∀ (vals : List F) (n : Nat), vals.length = n →
    (((powersL a n).reverse.zip vals).map (fun pv => pv.1 * pv.2)).sum =
      ((List.range n).map (fun i => a ^ (n - 1 - i) * vals.getD i 0)).sum := by
  intro vals
  induction vals with
  | nil =>
      intro n hn
      subst hn
      simp
  | cons v rest ih =>
      intro n hn
      subst hn
      have hrev : (powersL a (rest.length + 1)).reverse =
          a ^ rest.length :: (powersL a rest.length).reverse := by
        simp [powersL, List.range_succ]
      simp only [List.length_cons] at hrev ⊢
      rw [hrev]
      simp only [List.zip_cons_cons, List.map_cons, List.sum_cons]
      rw [ih rest.length rfl]
      rw [List.range_succ_eq_map]
      simp only [List.map_cons, List.sum_cons, List.map_map]
      congr 1
      apply congrArg
      apply List.map_congr_left
      intro i hi
      simp only [Function.comp_apply, List.getD_cons_succ]
      have he : rest.length - 1 - i = rest.length + 1 - 1 - i.succ := by omega
      rw [he]

/-- `alookup` finds the entry just consed on. -/
theorem alookup_cons_self {α β : Type} [DecidableEq α] (k : α) (v : β)
    (l : List (α × β)) : alookup ((k, v) :: l) k = some v := by
  simp [alookup]

/-- Claim C8: `Proof::evaluations` combines the `R` relation evaluations at
`z` as `Q(z) = Σ_{i<R} α^(R-1-i) · relation_i(z) · (z^n − 1)⁻¹` (protocol
order, descending α powers) and the resulting table maps
`Query { poly: vanishing_poly(), rotation: cur() }` to exactly this value. -/
theorem C8_quotient_evaluation {F G : Type} [Field F] (pr : Proof F G)
    (P : Protocol F G) (table : List (Query × F)) (vals : List F)
    (hE : Proof.evaluationsTable pr P (CommonPolyEval.new P.domain pr.z) =
      Except.ok table)
    (hrel : mapE (fun r => evalExpr (CommonPolyEval.new P.domain pr.z)
        (baseEvalTable pr P (CommonPolyEval.new P.domain pr.z)) pr.challenges r)
      P.relations = Except.ok vals) :
    alookup table (⟨P.vanishing_poly, (0 : Rot)⟩ : Query) =
      some (((List.range P.relations.length).map (fun i =>
        pr.alpha ^ (P.relations.length - 1 - i) * vals.getD i 0 *
          (pr.z ^ P.domain.n - 1)⁻¹)).sum) := by
  have hlenv : vals.length = P.relations.length := mapE_ok_length _ _ _ hrel
  unfold Proof.evaluationsTable at hE
  rw [mapE_scale _ ((powersL pr.alpha P.relations.length).reverse)
    P.relations vals hrel] at hE
  simp only [Except.ok.injEq] at hE
  subst hE
  rw [alookup_cons_self]
  congr 1
  rw [zip_rev_mul_sum pr.alpha vals P.relations.length hlenv]
  rw [← List.sum_map_mul_right]
  apply congrArg
  apply List.map_congr_left
  intro i hi
  show pr.alpha ^ (P.relations.length - 1 - i) * vals.getD i 0 *
      (CommonPolyEval.new P.domain pr.z).zn_minus_one_inv = _
  rfl

/-- Witness for C8: on the concrete example the vanishing-poly entry of the
evaluation table is `α⁰ · 16 · (z² − 1)⁻¹`. -/
theorem C8_quotient_evaluation_witness :
    alookup exEvals (⟨exP.vanishing_poly, (0 : Rot)⟩ : Query) =
      some (((List.range exP.relations.length).map (fun i =>
        exProof.alpha ^ (exP.relations.length - 1 - i) *
          ([16] : List ℚ).getD i 0 * (exProof.z ^ exP.domain.n - 1)⁻¹)).sum) :=
  C8_quotient_evaluation exProof exP exEvals [16]
    (by with_unfolding_all rfl) (by with_unfolding_all rfl)

/-! ### Forward propagation through the pipeline (claims C2, C10) -/

theorem OE.bind_ok_left {E A B : Type} (a : A) (f : A → OE E B) :
    OE.bind (OE.ok a) f = f a := rfl

theorem OE.bind_fail_left {E A B : Type} (e : E) (f : A → OE E B) :
    OE.bind (OE.fail e) f = OE.fail e := rfl

theorem OE.bind_panic_left {E A B : Type} (f : A → OE E B) :
    OE.bind (OE.panic) f = OE.panic := rfl

theorem OE.ofOption_some {E A : Type} (a : A) :
    OE.ofOption (E := E) (some a) = OE.ok a := rfl

theorem OE.ofOption_none {E A : Type} :
    OE.ofOption (E := E) (A := A) none = OE.panic := rfl

theorem OE.lift_error {E A : Type} (e : E) :
    OE.lift (A := A) (Except.error e) = OE.fail e := rfl

theorem OE.lift_ok' {E A : Type} (a : A) :
    OE.lift (E := E) (Except.ok a) = OE.ok a := rfl

/-- If the reader succeeds, the commitments map is built, and the evaluation
table construction fails, then `verify_proof` returns that error. -/
theorem verify_fail_of_evalTable_error {F G : Type} [Field F] [DecidableEq G]
    (order : List Rot) (P : Protocol F G) (st : List (List F)) (ts : TS F G)
    (prts : Proof F G × TS F G) (C : List (Nat × MSM F G)) (e : VError)
    (hread : Proof.read P st (ts.commonScalar P.transcript_initial_state) =
      OE.ok prts)
    (hC : Proof.commitments prts.1 P (CommonPolyEval.new P.domain prts.1.z) =
      some C)
    (hE : Proof.evaluationsTable prts.1 P (CommonPolyEval.new P.domain prts.1.z) =
      Except.error e) :
    verifyProofOrd order P st ts = OE.fail e := by
  unfold verifyProofOrd
  rw [hread, OE.bind_ok_left, hC, OE.ofOption_some, OE.bind_ok_left, hE,
    OE.lift_error, OE.bind_fail_left]

/-- If everything up to the per-set MSMs succeeds but one of the MSM lookups
is missing, `verify_proof` panics. -/
theorem verify_panic_of_msm_none {F G : Type} [Field F] [DecidableEq G]
    (order : List Rot) (P : Protocol F G) (st : List (List F)) (ts : TS F G)
    (prts : Proof F G × TS F G) (C : List (Nat × MSM F G))
    (E : List (Query × F)) (sets : List (ISet F)) (mx : Nat)
    (hread : Proof.read P st (ts.commonScalar P.transcript_initial_state) =
      OE.ok prts)
    (hC : Proof.commitments prts.1 P (CommonPolyEval.new P.domain prts.1.z) =
      some C)
    (hE : Proof.evaluationsTable prts.1 P (CommonPolyEval.new P.domain prts.1.z) =
      Except.ok E)
    (hS : intermediateSetsOrd order P prts.1.z prts.1.z_prime = some sets)
    (hmx : (sets.map (fun s => s.polys.length)).max? = some mx)
    (hM : mapO (fun s => s.msm C E (powersL prts.1.mu mx)) sets = none) :
    verifyProofOrd order P st ts = OE.panic := by
  unfold verifyProofOrd
  rw [hread, OE.bind_ok_left, hC, OE.ofOption_some, OE.bind_ok_left, hE,
    OE.lift_ok', OE.bind_ok_left, hS, OE.ofOption_some, OE.bind_ok_left,
    hmx, OE.ofOption_some, OE.bind_ok_left, hM, OE.ofOption_none,
    OE.bind_panic_left]

/-- Claim C2 (amended): a missing evaluation referenced by a relation during
quotient evaluation makes `verify_proof` return `MissingQuery` carrying a
query that is genuinely absent from the table; but a missing `(poly,
rotation)` lookup in an intermediate set's MSM makes `verify_proof` panic
(`unwrap` on `None`), not return `MissingQuery`. -/
theorem C2_missing_query {F G : Type} [Field F] [DecidableEq G]
    (order : List Rot) (P : Protocol F G) (st : List (List F)) (ts : TS F G) :
    (∀ (prts : Proof F G × TS F G) (C : List (Nat × MSM F G)) (q : Query),
      Proof.read P st (ts.commonScalar P.transcript_initial_state) = OE.ok prts →
      Proof.commitments prts.1 P (CommonPolyEval.new P.domain prts.1.z) = some C →
      Proof.evaluationsTable prts.1 P (CommonPolyEval.new P.domain prts.1.z) =
        Except.error (VError.MissingQuery q) →
      verifyProofOrd order P st ts = OE.fail (VError.MissingQuery q) ∧
      alookup (baseEvalTable prts.1 P (CommonPolyEval.new P.domain prts.1.z)) q =
        none) ∧
    (∀ (prts : Proof F G × TS F G) (C : List (Nat × MSM F G))
      (E : List (Query × F)) (sets : List (ISet F)) (mx : Nat),
      Proof.read P st (ts.commonScalar P.transcript_initial_state) = OE.ok prts →
      Proof.commitments prts.1 P (CommonPolyEval.new P.domain prts.1.z) = some C →
      Proof.evaluationsTable prts.1 P (CommonPolyEval.new P.domain prts.1.z) =
        Except.ok E →
      intermediateSetsOrd order P prts.1.z prts.1.z_prime = some sets →
      (sets.map (fun s => s.polys.length)).max? = some mx →
      mapO (fun s => s.msm C E (powersL prts.1.mu mx)) sets = none →
      verifyProofOrd order P st ts = OE.panic) := by
  constructor
  · intro prts C q hread hC hE
    refine ⟨verify_fail_of_evalTable_error order P st ts prts C _ hread hC hE, ?_⟩
    rcases evaluationsTable_error _ _ _ _ hE with ⟨q', hq', hlook⟩ | ⟨i, hi, _⟩
    · obtain rfl : q = q' := by
        injection hq'
      exact hlook
    · exact absurd hi (by simp)
  · intro prts C E sets mx hread hC hE hS hmx hM
    exact verify_panic_of_msm_none order P st ts prts C E sets mx
      hread hC hE hS hmx hM

/-- Variant of the example protocol whose relation references the absent
query `(9, 0)`. -/
def exP2 : Protocol ℚ ℕ :=
  { exP with
      relations := [Expression.sum
        (Expression.product (Expression.query ⟨0, 0⟩) (Expression.query ⟨0, 0⟩))
        (Expression.query ⟨9, 0⟩)] }

/-- Variant of the example protocol that queries `(0, 0)` without providing
its evaluation anywhere in the table. -/
def exP3 : Protocol ℚ ℕ :=
  { exP with
      relations := [Expression.product (Expression.query ⟨2, 0⟩)
        (Expression.query ⟨2, 0⟩)]
      queries := [⟨0, 0⟩, ⟨2, 0⟩, ⟨5, 0⟩]
      evaluations := [⟨2, 0⟩] }

/-- The proof read under `exP3` (only one transcript scalar is consumed). -/
def exProof3 : Proof ℚ ℕ :=
  { exProof with evaluations := [4] }

/-- The transcript state after the reader finishes under `exP3`. -/
def exTS3 : TS ℚ ℕ :=
  { rs := [6, 8], rp := [], sq := [10, 2, 3, 4, 5], k := 5,
    trace := [TEvent.common 1, TEvent.common 3, TEvent.common 5, TEvent.common 9,
      TEvent.readPoint 11, TEvent.squeeze 10, TEvent.readPoint 13,
      TEvent.squeeze 2, TEvent.readScalar 4, TEvent.squeeze 3, TEvent.squeeze 4,
      TEvent.readPoint 17, TEvent.squeeze 5, TEvent.readPoint 19] }

/-- The evaluation table of the `exP3` run: query `(0, 0)` is absent. -/
def exEvals3 : List (Query × ℚ) :=
  [(⟨5, 0⟩, 16/3), (⟨2, 0⟩, 4), (⟨1, 0⟩, 31/2)]

/-- The single intermediate set of the `exP3` run. -/
def exSets3 : List (ISet ℚ) :=
  [{ polys := [0, 2, 5], rotations := [0], z_s := 3, commitment_coeff := none,
     evaluation_coeffs := [1/3], remainder_coeff := 3 }]

/-- Counterexample for C2 as stated: under `exP3` the query `(0, 0)` is
needed by the intermediate set's MSM but absent from the evaluation table,
and `verify_proof` panics instead of returning `MissingQuery (0, 0)`. -/
theorem C2_counterexample :
    (⟨0, 0⟩ : Query) ∈ exP3.queries ∧
    Proof.evaluationsTable exProof3 exP3
      (CommonPolyEval.new exP3.domain exProof3.z) = Except.ok exEvals3 ∧
    alookup exEvals3 (⟨0, 0⟩ : Query) = none ∧
    verifyProof exP3 exStatements exTS = OE.panic := by
  refine ⟨by decide, by with_unfolding_all rfl, by decide, ?_⟩
  with_unfolding_all rfl

/-- Witness for C2 (amended): the relation-referenced missing query gives
`MissingQuery (9, 0)` on `exP2`; the MSM-level missing query makes `exP3`
panic. -/
theorem C2_missing_query_witness :
    verifyProofOrd (superset exP2.queries) exP2 exStatements exTS =
      OE.fail (VError.MissingQuery ⟨9, 0⟩) ∧
    verifyProofOrd (superset exP3.queries) exP3 exStatements exTS = OE.panic :=
  ⟨((C2_missing_query (superset exP2.queries) exP2 exStatements exTS).1
      (exProof, exTS1) exCommitments ⟨9, 0⟩ (by with_unfolding_all rfl)
      (by with_unfolding_all rfl) (by with_unfolding_all rfl)).1,
   (C2_missing_query (superset exP3.queries) exP3 exStatements exTS).2
      (exProof3, exTS3) exCommitments exEvals3 exSets3 3
      (by with_unfolding_all rfl) (by with_unfolding_all rfl)
      (by with_unfolding_all rfl) (by with_unfolding_all rfl)
      (by with_unfolding_all rfl) (by with_unfolding_all rfl)⟩

/-! ### Panic conditions (claim C10) -/

/-- With no quotient commitments the `reduce(..).unwrap()` of
`Proof::commitments` panics. -/
theorem commitments_none_of_quotients_nil {F G : Type} [Field F] [DecidableEq G]
    (pr : Proof F G) (P : Protocol F G) (cpe : CommonPolyEval F)
    (hq : pr.quotients = []) : Proof.commitments pr P cpe = none := by
  unfold Proof.commitments
  rw [hq]
  rfl

/-- With no queries the `max().unwrap()` of `intermediate_sets` panics. -/
theorem intermediateSetsOrd_none_of_queries_nil {F G : Type} [Field F]
    (order : List Rot) (P : Protocol F G) (z z' : F) (hq : P.queries = []) :
    intermediateSetsOrd order P z z' = none := by
  unfold intermediateSetsOrd polyRotations
  rw [hq]
  rfl

/-- The reader walked up to the degree computation: helper giving the
quotient count on success. -/
theorem read_ok_quotients {F G : Type} [Field F] (P : Protocol F G)
    (st : List (List F)) (ts : TS F G) (prts : Proof F G × TS F G)
    (h : Proof.read P st ts = OE.ok prts) (d : Nat)
    (hd : (P.relations.map Expression.degree).max? = some d) :
    prts.1.quotients.length = d - 1 := by
  unfold Proof.read at h
  split at h
  · exact absurd h (OE.fail_ne_ok _ _)
  rw [OE.bind_eq_ok] at h
  obtain ⟨act, hact, h⟩ := h
  rw [OE.bind_eq_ok] at h
  obtain ⟨maxDegree, hmax, h⟩ := h
  rw [OE.ofOption_eq_ok, hd] at hmax
  injection hmax with hmax
  subst hmax
  split at h
  · exact absurd h (OE.panic_ne_ok _)
  rw [OE.bind_eq_ok] at h
  obtain ⟨qt, hqt, h⟩ := h
  rw [OE.lift_eq_ok] at hqt
  rw [OE.bind_eq_ok] at h
  obtain ⟨et, het, h⟩ := h
  rw [OE.bind_eq_ok] at h
  obtain ⟨wt, hwt, h⟩ := h
  rw [OE.bind_eq_ok] at h
  obtain ⟨wt2, hwt2, h⟩ := h
  rw [OE.ok_inj] at h
  obtain ⟨q1, q2, q3, q4, q5, q6, q7⟩ := readNPoints_ok _ _ _ _ hqt
  rw [← h]
  exact q7

/-- Claim C10: `verify_proof` panics — instead of returning a `Result` —
when the relation list is empty (`max().unwrap()`), when the maximum relation
degree is 0 (the `usize` subtraction `max_degree - 1` underflows), when it is
1 (the quotient fold over zero commitments hits `reduce(..).unwrap()`), or
when the query list is empty (`max().unwrap()` in `intermediate_sets`);
each case assumes the stages before the panic site succeed. -/
theorem C10_partiality {F G : Type} [Field F] [DecidableEq G] (order : List Rot)
    (P : Protocol F G) (st : List (List F)) (ts : TS F G) :
    (∀ act, P.relations = [] → st.length = P.num_statement →
      phasesRead (P.num_auxiliary.zip P.num_challenge)
        (st.foldl (fun a s => s.foldl TS.commonScalar a)
          (ts.commonScalar P.transcript_initial_state)) = Except.ok act →
      verifyProofOrd order P st ts = OE.panic) ∧
    (∀ act, (P.relations.map Expression.degree).max? = some 0 →
      st.length = P.num_statement →
      phasesRead (P.num_auxiliary.zip P.num_challenge)
        (st.foldl (fun a s => s.foldl TS.commonScalar a)
          (ts.commonScalar P.transcript_initial_state)) = Except.ok act →
      verifyProofOrd order P st ts = OE.panic) ∧
    (∀ prts, (P.relations.map Expression.degree).max? = some 1 →
      Proof.read P st (ts.commonScalar P.transcript_initial_state) = OE.ok prts →
      verifyProofOrd order P st ts = OE.panic) ∧
    (∀ (prts : Proof F G × TS F G) (C : List (Nat × MSM F G))
      (E : List (Query × F)), P.queries = [] →
      Proof.read P st (ts.commonScalar P.transcript_initial_state) = OE.ok prts →
      Proof.commitments prts.1 P (CommonPolyEval.new P.domain prts.1.z) = some C →
      Proof.evaluationsTable prts.1 P (CommonPolyEval.new P.domain prts.1.z) =
        Except.ok E →
      verifyProofOrd order P st ts = OE.panic) := by
  refine ⟨?_, ?_, ?_, ?_⟩
  · intro act hrel hlen hph
    have hread : Proof.read P st (ts.commonScalar P.transcript_initial_state) =
        OE.panic := by
      unfold Proof.read
      rw [if_neg (fun hc => hc hlen)]
      rw [hph, OE.lift_ok', OE.bind_ok_left]
      rw [hrel]
      rfl
    unfold verifyProofOrd
    rw [hread, OE.bind_panic_left]
  · intro act hdeg hlen hph
    have hread : Proof.read P st (ts.commonScalar P.transcript_initial_state) =
        OE.panic := by
      unfold Proof.read
      rw [if_neg (fun hc => hc hlen)]
      rw [hph, OE.lift_ok', OE.bind_ok_left, hdeg, OE.ofOption_some,
        OE.bind_ok_left]
      rw [if_pos rfl]
    unfold verifyProofOrd
    rw [hread, OE.bind_panic_left]
  · intro prts hdeg hread
    have hq : prts.1.quotients = [] := by
      have := read_ok_quotients P st _ prts hread 1 hdeg
      simpa using List.eq_nil_of_length_eq_zero (by simpa using this)
    unfold verifyProofOrd
    rw [hread, OE.bind_ok_left,
      commitments_none_of_quotients_nil prts.1 P _ hq, OE.ofOption_none,
      OE.bind_panic_left]
  · intro prts C E hq hread hC hE
    unfold verifyProofOrd
    rw [hread, OE.bind_ok_left, hC, OE.ofOption_some, OE.bind_ok_left, hE,
      OE.lift_ok', OE.bind_ok_left,
      intermediateSetsOrd_none_of_queries_nil order P _ _ hq, OE.ofOption_none,
      OE.bind_panic_left]

/-- Panic scenario: empty relation list. -/
def P10a : Protocol ℚ ℕ :=
  { domain := { k := 1, omega := -1 }, preprocessed := [], num_statement := 0,
    num_auxiliary := [], num_challenge := [], relations := [],
    queries := [⟨0, 0⟩], evaluations := [], vanishing_poly := 5,
    transcript_initial_state := 1 }

/-- Panic scenario: maximum relation degree 0 (underflow of `max_degree-1`). -/
def P10b : Protocol ℚ ℕ :=
  { P10a with relations := [Expression.constant 3] }

/-- Panic scenario: maximum relation degree 1 (empty quotient fold). -/
def P10c : Protocol ℚ ℕ :=
  { P10a with relations := [Expression.query ⟨0, 0⟩] }

/-- Panic scenario: empty query list. -/
def P10d : Protocol ℚ ℕ :=
  { P10a with
      relations := [Expression.product (Expression.common (CommonPoly.lagrange 0))
        (Expression.common (CommonPoly.lagrange 0))]
      queries := [] }

/-- The proof read under `P10c` (no quotient points are read). -/
def proof10c : Proof ℚ ℕ :=
  { statements := [], auxiliaries := [], challenges := [], alpha := 10,
    quotients := [], z := 2, evaluations := [], mu := 3, gamma := 4, w := 11,
    z_prime := 5, w_prime := 13 }

/-- The transcript state after reading under `P10c`. -/
def ts10c : TS ℚ ℕ :=
  { rs := [4, 6, 8], rp := [17, 19], sq := [10, 2, 3, 4, 5], k := 5,
    trace := [TEvent.common 1, TEvent.squeeze 10, TEvent.squeeze 2,
      TEvent.squeeze 3, TEvent.squeeze 4, TEvent.readPoint 11, TEvent.squeeze 5,
      TEvent.readPoint 13] }

/-- The proof read under `P10d` (one quotient point). -/
def proof10d : Proof ℚ ℕ :=
  { statements := [], auxiliaries := [], challenges := [], alpha := 10,
    quotients := [11], z := 2, evaluations := [], mu := 3, gamma := 4, w := 13,
    z_prime := 5, w_prime := 17 }

/-- The transcript state after reading under `P10d`. -/
def ts10d : TS ℚ ℕ :=
  { rs := [4, 6, 8], rp := [19], sq := [10, 2, 3, 4, 5], k := 5,
    trace := [TEvent.common 1, TEvent.squeeze 10, TEvent.readPoint 11,
      TEvent.squeeze 2, TEvent.squeeze 3, TEvent.squeeze 4, TEvent.readPoint 13,
      TEvent.squeeze 5, TEvent.readPoint 17] }

/-- Witness for C10: all four panic conditions fire on concrete protocols. -/
theorem C10_partiality_witness :
    verifyProofOrd (superset P10a.queries) P10a [] exTS = OE.panic ∧
    verifyProofOrd (superset P10b.queries) P10b [] exTS = OE.panic ∧
    verifyProofOrd (superset P10c.queries) P10c [] exTS = OE.panic ∧
    verifyProofOrd (superset P10d.queries) P10d [] exTS = OE.panic :=
  ⟨(C10_partiality (superset P10a.queries) P10a [] exTS).1
      (([], []), exTS.commonScalar 1) rfl rfl (by with_unfolding_all rfl),
   (C10_partiality (superset P10b.queries) P10b [] exTS).2.1
      (([], []), exTS.commonScalar 1) (by with_unfolding_all rfl) rfl
      (by with_unfolding_all rfl),
   (C10_partiality (superset P10c.queries) P10c [] exTS).2.2.1
      (proof10c, ts10c) (by with_unfolding_all rfl) (by with_unfolding_all rfl),
   (C10_partiality (superset P10d.queries) P10d [] exTS).2.2.2
      (proof10d, ts10d) [(5, ⟨0, [(1, 11)]⟩)] [(⟨5, 0⟩, 3/4)] rfl
      (by with_unfolding_all rfl) (by with_unfolding_all rfl)
      (by with_unfolding_all rfl)⟩

/-! ### Iteration-order independence (claim C9) -/

/-- Looking up a key in a map built by iterating `order` depends only on
membership, because the value is a function of the key. -/
theorem alookup_map_self {F : Type} (g : Rot → F) :
    ∀ (order : List Rot) (r : Rot),
    alookup (order.map (fun r0 => (r0, g r0))) r =
      if r ∈ order then some (g r) else none := by
  intro order
  induction order with
  | nil => intro r; simp [alookup]
  | cons a rest ih =>
      intro r
      simp only [List.map_cons, alookup]
      by_cases ha : a = r
      · subst ha
        simp
      · rw [if_neg ha, ih r]
        by_cases hr : r ∈ rest
        · simp [hr]
        · have hra : ¬(r ∈ a :: rest) := by
            intro hc
            rcases List.mem_cons.mp hc with hc | hc
            · exact ha hc.symm
            · exact hr hc
          simp [hr, hra]

/-- `IntermediateSet::new` is invariant under reordering of the
`z_prime_minus_z_omega_i` map. -/
theorem ISet_new_order_irrel {F : Type} [Field F] (d : Domain F)
    (rotations : List Rot) (pz : List F) (z' : F) (o1 o2 : List Rot)
    (z0 : F) (zs1 : Option F) (hmem : ∀ r, r ∈ o1 ↔ r ∈ o2) :
    ISet.new d rotations pz z' (zMap o1 d z0 z') zs1 =
      ISet.new d rotations pz z' (zMap o2 d z0 z') zs1 := by
  unfold ISet.new zMap
  have hz : ∀ r : Rot,
      (alookup (o1.map (fun r0 => (r0, z' - z0 * d.rotateScalar 1 r0))) r).getD 0 =
      (alookup (o2.map (fun r0 => (r0, z' - z0 * d.rotateScalar 1 r0))) r).getD 0 := by
    intro r
    rw [alookup_map_self, alookup_map_self]
    by_cases hr : r ∈ o1
    · rw [if_pos hr, if_pos ((hmem r).mp hr)]
    · rw [if_neg hr, if_neg (fun hc => hr ((hmem r).mpr hc))]
  have hmap : rotations.map (fun r =>
      (alookup (o1.map (fun r0 => (r0, z' - z0 * d.rotateScalar 1 r0))) r).getD 0) =
      rotations.map (fun r =>
      (alookup (o2.map (fun r0 => (r0, z' - z0 * d.rotateScalar 1 r0))) r).getD 0) :=
    List.map_congr_left (fun r _ => hz r)
  rw [hmap]

/-- `intermediate_sets` is invariant under the `HashSet` iteration order of
the rotation superset. -/
theorem intermediateSetsOrd_order_irrel {F G : Type} [Field F] (o1 o2 : List Rot)
    (P : Protocol F G) (z z' : F) (hmem : ∀ r, r ∈ o1 ↔ r ∈ o2) :
    intermediateSetsOrd (G := G) o1 P z z' =
      intermediateSetsOrd (G := G) o2 P z z' := by
  unfold intermediateSetsOrd
  cases hmx : (List.map (fun e => e.2.length) (polyRotations P.queries)).max? with
  | none => rfl
  | some maxLen =>
      simp only []
      have hstep : stepSets P.domain (powersL z
          (max 2 (log2F (nextPow2 (maxLen - 1)) + 1))) z' (zMap o1 P.domain z z') =
          stepSets P.domain (powersL z
          (max 2 (log2F (nextPow2 (maxLen - 1)) + 1))) z' (zMap o2 P.domain z z') := by
        funext acc e
        unfold stepSets
        rw [ISet_new_order_irrel P.domain e.2 _ z' o1 o2 z acc.2 hmem]
      rw [hstep]

/-- Claim C9: `verify_proof` is deterministic — a fixed input determines a
unique result, and the only internal use of hash-container iteration (the
rotation superset) does not influence the outcome: any iteration order that
is a permutation of the canonical one yields the same (lhs, rhs) pair and
strategy input. -/
theorem C9_determinism {F G : Type} [Field F] [DecidableEq G]
    (order : List Rot) (P : Protocol F G) (st : List (List F)) (ts : TS F G)
    (h : order.Perm (superset P.queries)) :
    verifyProofOrd order P st ts = verifyProof P st ts ∧
    (∀ r1 r2 : OE VError (Proof F G × MSM F G × MSM F G),
      verifyProofOrd order P st ts = r1 → verifyProofOrd order P st ts = r2 →
      r1 = r2) := by
  constructor
  · unfold verifyProof verifyProofOrd
    have hsets : ∀ z z' : F, intermediateSetsOrd (G := G) order P z z' =
        intermediateSetsOrd (G := G) (superset P.queries) P z z' :=
      fun z z' => intermediateSetsOrd_order_irrel order (superset P.queries) P
        z z' (fun r => h.mem_iff)
    simp only [hsets]
  · intro r1 r2 h1 h2
    rw [← h1, ← h2]

/-- Witness for C9: iterating the superset in reverse order yields the same
result as the canonical order on the concrete example. -/
theorem C9_determinism_witness :
    verifyProofOrd [1, 0] exP exStatements exTS =
      verifyProof exP exStatements exTS :=
  (C9_determinism [1, 0] exP exStatements exTS (by decide)).1

/-! ### Grouping invariants (claims C6, C7): first-encounter dedup lemmas -/

theorem foldl_addNew_mem {α : Type} [DecidableEq α] :
    ∀ (l : List α) (acc : List α) (x : α),
    x ∈ l.foldl addNew acc ↔ x ∈ acc ∨ x ∈ l := by
  intro l
  induction l with
  | nil => intro acc x; simp
  | cons a rest ih =>
      intro acc x
      simp only [List.foldl_cons, ih, addNew]
      by_cases ha : a ∈ acc
      · rw [if_pos ha]
        constructor
        · rintro (h | h)
          · exact Or.inl h
          · exact Or.inr (List.mem_cons_of_mem a h)
        · rintro (h | h)
          · exact Or.inl h
          · rcases List.mem_cons.mp h with h | h
            · exact Or.inl (h ▸ ha)
            · exact Or.inr h
      · rw [if_neg ha]
        simp only [List.mem_append, List.mem_singleton, List.mem_cons]
        tauto

theorem mem_firstDedup {α : Type} [DecidableEq α] (l : List α) (x : α) :
    x ∈ firstDedup l ↔ x ∈ l := by
  unfold firstDedup
  rw [foldl_addNew_mem]
  simp

theorem foldl_addNew_nodup {α : Type} [DecidableEq α] :
    ∀ (l : List α) (acc : List α), acc.Nodup → (l.foldl addNew acc).Nodup := by
  intro l
  induction l with
  | nil => intro acc h; simpa using h
  | cons a rest ih =>
      intro acc h
      simp only [List.foldl_cons]
      apply ih
      unfold addNew
      by_cases ha : a ∈ acc
      · rwa [if_pos ha]
      · rw [if_neg ha]
        simpa [List.nodup_append] using ⟨h, ha⟩

theorem nodup_firstDedup {α : Type} [DecidableEq α] (l : List α) :
    (firstDedup l).Nodup :=
  foldl_addNew_nodup l [] List.nodup_nil

theorem firstDedup_append_singleton {α : Type} [DecidableEq α] (l : List α)
    (a : α) : firstDedup (l ++ [a]) = addNew (firstDedup l) a := by
  unfold firstDedup
  rw [List.foldl_append]
  rfl

theorem toFinset_firstDedup {α : Type} [DecidableEq α] (l : List α) :
    (firstDedup l).toFinset = l.toFinset := by
  apply Finset.ext
  intro x
  simp [List.mem_toFinset, mem_firstDedup]

/-- The first-encounter rotation list of a given poly over a query list. -/
def rotListOf (queries : List Query) (p : Nat) : List Rot :=
  firstDedup ((queries.filter (fun q => q.poly = p)).map (fun q => q.rotation))

/-- The full rotation set of a poly, as a `Finset`. -/
def rotSetOf (queries : List Query) (p : Nat) : Finset Rot :=
  ((queries.filter (fun q => q.poly = p)).map (fun q => q.rotation)).toFinset

/-- The intended value of the `poly_rotations` fold: polys in first-encounter
order, each paired with its first-encounter rotation list. -/
def polyRotationsSpec (queries : List Query) : List (Nat × List Rot) :=
  (firstDedup (queries.map (fun q => q.poly))).map
    (fun p => (p, rotListOf queries p))

/-- Action of `insertPR` on a list keyed by a duplicate-free poly list. -/
theorem insertPR_map (q : Query) :
    ∀ (L : List Nat) (f : Nat → List Rot), L.Nodup →
    insertPR (L.map (fun p => (p, f p))) q =
      (if q.poly ∈ L then
        L.map (fun p => (p, if p = q.poly then addNew (f p) q.rotation else f p))
      else
        L.map (fun p => (p, f p)) ++ [(q.poly, [q.rotation])]) := by
  intro L
  induction L with
  | nil =>
      intro f _
      simp [insertPR]
  | cons p0 L' ih =>
      intro f hN
      have hnodup' : L'.Nodup := (List.nodup_cons.mp hN).2
      have hp0 : p0 ∉ L' := (List.nodup_cons.mp hN).1
      simp only [List.map_cons, insertPR]
      by_cases hpq : p0 = q.poly
      · rw [if_pos hpq]
        have hmem : q.poly ∈ p0 :: L' := List.mem_cons.mpr (Or.inl hpq.symm)
        rw [if_pos hmem]
        rw [if_pos hpq]
        have htail : L'.map
            (fun p => (p, if p = q.poly then addNew (f p) q.rotation else f p)) =
            L'.map (fun p => (p, f p)) :=
          List.map_congr_left (fun x hx => by
            have hxq : ¬(x = q.poly) := fun hc => hp0 (by rw [hpq]; exact hc ▸ hx)
            simp [hxq])
        rw [htail]
        rfl
      · rw [if_neg hpq]
        rw [ih f hnodup']
        by_cases hq : q.poly ∈ L'
        · rw [if_pos hq, if_pos (List.mem_cons_of_mem p0 hq)]
          rw [if_neg hpq]
        · rw [if_neg hq]
          have hnm : ¬(q.poly ∈ p0 :: L') := by
            intro hc
            rcases List.mem_cons.mp hc with hc | hc
            · exact hpq hc.symm
            · exact hq hc
          rw [if_neg hnm]
          simp

/-- Stage A: the `poly_rotations` fold computes exactly the first-encounter
spec. -/
theorem polyRotations_eq_spec (queries : List Query) :
    polyRotations queries = polyRotationsSpec queries := by
  induction queries using List.reverseRecOn with
  | nil => rfl
  | append_singleton qs q ih =>
      unfold polyRotations at ih ⊢
      rw [List.foldl_append]
      simp only [List.foldl_cons, List.foldl_nil]
      rw [ih]
      unfold polyRotationsSpec
      rw [insertPR_map q _ _ (nodup_firstDedup _)]
      rw [show (qs ++ [q]).map (fun q0 => q0.poly) =
        qs.map (fun q0 => q0.poly) ++ [q.poly] by simp]
      rw [firstDedup_append_singleton]
      unfold addNew
      by_cases hq : q.poly ∈ firstDedup (qs.map (fun q0 => q0.poly))
      · rw [if_pos hq, if_pos hq]
        apply List.map_congr_left
        intro p hp
        by_cases hpq : p = q.poly
        · rw [if_pos hpq, hpq]
          unfold rotListOf
          rw [show (qs ++ [q]).filter (fun q0 => decide (q0.poly = q.poly)) =
            qs.filter (fun q0 => decide (q0.poly = q.poly)) ++ [q] by
              rw [List.filter_append]
              simp]
          rw [List.map_append]
          simp only [List.map_cons, List.map_nil]
          rw [firstDedup_append_singleton]
          rfl
        · rw [if_neg hpq]
          have hqp : ¬(q.poly = p) := fun hc => hpq hc.symm
          unfold rotListOf
          rw [show (qs ++ [q]).filter (fun q0 => decide (q0.poly = p)) =
            qs.filter (fun q0 => decide (q0.poly = p)) by
              rw [List.filter_append]
              simp [hqp]]
      · rw [if_neg hq, if_neg hq]
        rw [List.map_append]
        congr 1
        · apply List.map_congr_left
          intro p hp
          have hpq : ¬(p = q.poly) := fun hc => hq (hc ▸ hp)
          have hqp : ¬(q.poly = p) := fun hc => hpq hc.symm
          unfold rotListOf
          rw [show (qs ++ [q]).filter (fun q0 => decide (q0.poly = p)) =
            qs.filter (fun q0 => decide (q0.poly = p)) by
              rw [List.filter_append]
              simp [hqp]]
        · simp only [List.map_cons, List.map_nil]
          have hqs : qs.filter (fun q0 => decide (q0.poly = q.poly)) = [] := by
            rw [List.filter_eq_nil]
            intro a ha hc
            apply hq
            rw [mem_firstDedup]
            exact List.mem_map.mpr ⟨a, ha, by simpa using hc⟩
          unfold rotListOf
          rw [List.filter_append, hqs]
          simp [firstDedup, addNew]

/-- Distinct rotation sets of the grouped entries, in first-encounter order. -/
def rotFinsets (pr : List (Nat × List Rot)) : List (Finset Rot) :=
  firstDedup (pr.map (fun e => e.2.toFinset))

/-- The polys whose rotation set is `R`, in entry order. -/
def polysFor (pr : List (Nat × List Rot)) (R : Finset Rot) : List Nat :=
  (pr.filter (fun e => decide (e.2.toFinset = R))).map (fun e => e.1)

/-- The rotation list of the first entry whose rotation set is `R`. -/
def rotsFor (pr : List (Nat × List Rot)) (R : Finset Rot) : List Rot :=
  ((pr.find? (fun e => decide (e.2.toFinset = R))).map (fun e => e.2)).getD []

/-- The "append the poly if new" update performed by `intermediate_sets` when
a set with the same rotation set already exists. -/
def polyUpd {F : Type} (s : ISet F) (p : Nat) : ISet F :=
  if p ∈ s.polys then s else { s with polys := s.polys ++ [p] }

theorem polyUpd_rotations {F : Type} (s : ISet F) (p : Nat) :
    (polyUpd s p).rotations = s.rotations := by
  unfold polyUpd
  split <;> rfl

theorem polyUpd_z_s {F : Type} (s : ISet F) (p : Nat) :
    (polyUpd s p).z_s = s.z_s := by
  unfold polyUpd
  split <;> rfl

theorem polyUpd_commitment_coeff {F : Type} (s : ISet F) (p : Nat) :
    (polyUpd s p).commitment_coeff = s.commitment_coeff := by
  unfold polyUpd
  split <;> rfl

theorem polyUpd_evaluation_coeffs {F : Type} (s : ISet F) (p : Nat) :
    (polyUpd s p).evaluation_coeffs = s.evaluation_coeffs := by
  unfold polyUpd
  split <;> rfl

theorem polyUpd_remainder_coeff {F : Type} (s : ISet F) (p : Nat) :
    (polyUpd s p).remainder_coeff = s.remainder_coeff := by
  unfold polyUpd
  split <;> rfl

theorem polyUpd_polys_of_not_mem {F : Type} (s : ISet F) (p : Nat)
    (h : p ∉ s.polys) : (polyUpd s p).polys = s.polys ++ [p] := by
  unfold polyUpd
  rw [if_neg h]

/-- Fields of `IntermediateSet::new` (used by the C7 invariant). -/
theorem ISet_new_rotations {F : Type} [Field F] (d : Domain F) (rots : List Rot)
    (pz : List F) (z' : F) (zm : List (Rot × F)) (zs1 : Option F) :
    (ISet.new d rots pz z' zm zs1).rotations = rots := rfl

theorem ISet_new_polys {F : Type} [Field F] (d : Domain F) (rots : List Rot)
    (pz : List F) (z' : F) (zm : List (Rot × F)) (zs1 : Option F) :
    (ISet.new d rots pz z' zm zs1).polys = [] := rfl

theorem ISet_new_cc_none {F : Type} [Field F] (d : Domain F) (rots : List Rot)
    (pz : List F) (z' : F) (zm : List (Rot × F)) :
    (ISet.new d rots pz z' zm none).commitment_coeff = none := rfl

theorem ISet_new_rc_none {F : Type} [Field F] (d : Domain F) (rots : List Rot)
    (pz : List F) (z' : F) (zm : List (Rot × F)) :
    (ISet.new d rots pz z' zm none).remainder_coeff =
      ((ISet.new d rots pz z' zm none).evaluation_coeffs.sum)⁻¹ := rfl

theorem ISet_new_cc_some {F : Type} [Field F] (d : Domain F) (rots : List Rot)
    (pz : List F) (z' : F) (zm : List (Rot × F)) (zf : F) :
    (ISet.new d rots pz z' zm (some zf)).commitment_coeff =
      some (zf * ((ISet.new d rots pz z' zm (some zf)).z_s)⁻¹) := rfl

theorem ISet_new_rc_some {F : Type} [Field F] (d : Domain F) (rots : List Rot)
    (pz : List F) (z' : F) (zm : List (Rot × F)) (zf : F) :
    (ISet.new d rots pz z' zm (some zf)).remainder_coeff =
      zf * ((ISet.new d rots pz z' zm (some zf)).z_s)⁻¹ *
        ((ISet.new d rots pz z' zm (some zf)).evaluation_coeffs.sum)⁻¹ := rfl

/-- `z_s` does not depend on the memoized first `z_s`. -/
theorem ISet_new_z_s_irrel {F : Type} [Field F] (d : Domain F) (rots : List Rot)
    (pz : List F) (z' : F) (zm : List (Rot × F)) (zs1 zs2 : Option F) :
    (ISet.new d rots pz z' zm zs1).z_s = (ISet.new d rots pz z' zm zs2).z_s := rfl

theorem rotFinsets_append {pr : List (Nat × List Rot)} {e : Nat × List Rot} :
    rotFinsets (pr ++ [e]) = addNew (rotFinsets pr) e.2.toFinset := by
  unfold rotFinsets
  rw [List.map_append]
  simp only [List.map_cons, List.map_nil]
  rw [firstDedup_append_singleton]

theorem polysFor_append {pr : List (Nat × List Rot)} {e : Nat × List Rot}
    {R : Finset Rot} :
    polysFor (pr ++ [e]) R =
      polysFor pr R ++ (if e.2.toFinset = R then [e.1] else []) := by
  unfold polysFor
  rw [List.filter_append, List.map_append]
  congr 1
  by_cases h : e.2.toFinset = R
  · rw [if_pos h]
    simp [List.filter, h]
  · rw [if_neg h]
    simp [List.filter, h]

theorem mem_rotFinsets {pr : List (Nat × List Rot)} {R : Finset Rot} :
    R ∈ rotFinsets pr ↔ ∃ e ∈ pr, e.2.toFinset = R := by
  unfold rotFinsets
  rw [mem_firstDedup]
  simp

theorem rotsFor_append_old {pr : List (Nat × List Rot)} {e : Nat × List Rot}
    {R : Finset Rot} (h : R ∈ rotFinsets pr) :
    rotsFor (pr ++ [e]) R = rotsFor pr R := by
  obtain ⟨e0, he0, hR⟩ := mem_rotFinsets.mp h
  have hs : (pr.find? (fun x => decide (x.2.toFinset = R))).isSome := by
    rw [List.find?_isSome]
    exact ⟨e0, he0, by simpa using hR⟩
  obtain ⟨a, ha⟩ := Option.isSome_iff_exists.mp hs
  unfold rotsFor
  rw [List.find?_append, ha]
  rfl

theorem rotsFor_append_new {pr : List (Nat × List Rot)} {e : Nat × List Rot}
    (h : e.2.toFinset ∉ rotFinsets pr) :
    rotsFor (pr ++ [e]) e.2.toFinset = e.2 := by
  have hn : pr.find? (fun x => decide (x.2.toFinset = e.2.toFinset)) = none := by
    rw [List.find?_eq_none]
    intro x hx
    simp only [decide_eq_true_eq]
    intro hc
    exact h (mem_rotFinsets.mpr ⟨x, hx, hc⟩)
  unfold rotsFor
  rw [List.find?_append, hn]
  simp [List.find?]

theorem rotsFor_toFinset {pr : List (Nat × List Rot)} {R : Finset Rot}
    (h : R ∈ rotFinsets pr) : (rotsFor pr R).toFinset = R := by
  obtain ⟨e0, he0, hR⟩ := mem_rotFinsets.mp h
  have hs : (pr.find? (fun x => decide (x.2.toFinset = R))).isSome := by
    rw [List.find?_isSome]
    exact ⟨e0, he0, by simpa using hR⟩
  obtain ⟨a, ha⟩ := Option.isSome_iff_exists.mp hs
  have hp := List.find?_some ha
  simp only [decide_eq_true_eq] at hp
  unfold rotsFor
  rw [ha]
  simpa using hp

theorem polysFor_subset_keys {pr : List (Nat × List Rot)} {R : Finset Rot}
    {p : Nat} (h : p ∈ polysFor pr R) : p ∈ pr.map Prod.fst := by
  unfold polysFor at h
  obtain ⟨e, he, hep⟩ := List.mem_map.mp h
  exact List.mem_map.mpr ⟨e, List.mem_of_mem_filter he, hep⟩

theorem polysFor_nil_of_not_mem {pr : List (Nat × List Rot)} {R : Finset Rot}
    (h : R ∉ rotFinsets pr) : polysFor pr R = [] := by
  unfold polysFor
  rw [List.map_eq_nil, List.filter_eq_nil]
  intro e he
  simp only [decide_eq_true_eq]
  intro hc
  exact h (mem_rotFinsets.mpr ⟨e, he, hc⟩)

/-- Action of `addToSets` on a list of sets indexed by distinct rotation
finsets: it succeeds iff the query's rotation set is among them, and then
updates exactly the matching set with `polyUpd`. -/
theorem addToSets_map {F : Type} [Field F] (p : Nat) (rots : List Rot) :
    ∀ (RS : List (Finset Rot)) (Φ : Finset Rot → ISet F), RS.Nodup →
    (∀ R ∈ RS, (Φ R).rotations.toFinset = R) →
    addToSets (RS.map Φ) p rots =
      if rots.toFinset ∈ RS then
        some (RS.map (fun R =>
          if R = rots.toFinset then polyUpd (Φ R) p else Φ R))
      else none := by
  intro RS
  induction RS with
  | nil => intro Φ _ _; simp [addToSets]
  | cons R0 RS' ih =>
      intro Φ hnd hrot
      have hnd' : RS'.Nodup := (List.nodup_cons.mp hnd).2
      have hR0 : R0 ∉ RS' := (List.nodup_cons.mp hnd).1
      have hrot0 : (Φ R0).rotations.toFinset = R0 :=
        hrot R0 (List.mem_cons_self R0 RS')
      simp only [List.map_cons, addToSets]
      by_cases h0 : R0 = rots.toFinset
      · have hc : (Φ R0).rotations.toFinset = rots.toFinset := by rw [hrot0, h0]
        have hmem : rots.toFinset ∈ R0 :: RS' := by
          rw [← h0]; exact List.mem_cons_self _ _
        rw [if_pos hc, if_pos hmem]
        have htail : List.map
            (fun R => if R = rots.toFinset then polyUpd (Φ R) p else Φ R) RS' =
            List.map Φ RS' := by
          apply List.map_congr_left
          intro R hR
          exact if_neg (fun hc2 => hR0 (by rw [h0.trans hc2.symm]; exact hR))
        rw [if_pos h0, htail]
        rfl
      · have hcn : ¬((Φ R0).rotations.toFinset = rots.toFinset) := by
          rw [hrot0]; exact h0
        rw [if_neg hcn]
        rw [ih Φ hnd' (fun R hR => hrot R (List.mem_cons_of_mem _ hR))]
        by_cases hm : rots.toFinset ∈ RS'
        · rw [if_pos hm, if_pos (List.mem_cons_of_mem _ hm)]
          rw [if_neg h0]
          rfl
        · rw [if_neg hm,
            if_neg (by intro hc; rcases List.mem_cons.mp hc with h | h
                       · exact h0 h.symm
                       · exact hm h)]
          rfl

theorem firstDedup_append_cases {α : Type} [DecidableEq α] (l : List α)
    (a : α) : firstDedup (l ++ [a]) =
      if a ∈ l then firstDedup l else firstDedup l ++ [a] := by
  rw [firstDedup_append_singleton]
  unfold addNew
  by_cases h : a ∈ l
  · rw [if_pos ((mem_firstDedup l a).mpr h), if_pos h]
  · rw [if_neg (fun hc => h ((mem_firstDedup l a).mp hc)), if_neg h]

/-- Deduplicating after mapping over a deduplicated list gives the same result
as deduplicating the mapped original list. -/
theorem firstDedup_map_firstDedup {α β : Type} [DecidableEq α] [DecidableEq β]
    (f : α → β) (l : List α) :
    firstDedup ((firstDedup l).map f) = firstDedup (l.map f) := by
  induction l using List.reverseRecOn with
  | nil => rfl
  | append_singleton l a ih =>
      rw [firstDedup_append_cases, List.map_append]
      simp only [List.map_cons, List.map_nil]
      rw [firstDedup_append_cases]
      by_cases h : a ∈ l
      · rw [if_pos h, ih]
        have hfa : f a ∈ l.map f := List.mem_map.mpr ⟨a, h, rfl⟩
        rw [if_pos hfa]
      · rw [if_neg h, List.map_append]
        simp only [List.map_cons, List.map_nil]
        rw [firstDedup_append_cases, ih]
        by_cases hfa : f a ∈ l.map f
        · have hfa' : f a ∈ (firstDedup l).map f := by
            obtain ⟨x, hx, hfx⟩ := List.mem_map.mp hfa
            exact List.mem_map.mpr ⟨x, (mem_firstDedup _ _).mpr hx, hfx⟩
          rw [if_pos hfa', if_pos hfa]
        · have hfa' : f a ∉ (firstDedup l).map f := fun hc => by
            obtain ⟨x, hx, hfx⟩ := List.mem_map.mp hc
            exact hfa (List.mem_map.mpr ⟨x, (mem_firstDedup _ _).mp hx, hfx⟩)
          rw [if_neg hfa', if_neg hfa]

theorem filter_map_comm {α β : Type} (f : α → β) (p : β → Bool) :
    ∀ l : List α, (l.map f).filter p = (l.filter (fun a => p (f a))).map f := by
  intro l
  induction l with
  | nil => rfl
  | cons a rest ih =>
      simp only [List.map_cons, List.filter]
      cases p (f a) with
      | true => simp only [List.map_cons, ih]
      | false => exact ih

theorem filter_eq_singleton_of_nodup {α : Type} [DecidableEq α] :
    ∀ (l : List α), l.Nodup → ∀ a ∈ l,
    l.filter (fun x => decide (x = a)) = [a] := by
  intro l
  induction l with
  | nil => intro _ a ha; exact absurd ha (List.not_mem_nil a)
  | cons b rest ih =>
      intro hnd a ha
      have hb : b ∉ rest := (List.nodup_cons.mp hnd).1
      have hnd' : rest.Nodup := (List.nodup_cons.mp hnd).2
      rcases List.mem_cons.mp ha with h | h
      · subst h
        simp only [List.filter, decide_True]
        congr 1
        rw [List.filter_eq_nil]
        intro x hx
        simp only [decide_eq_true_eq]
        intro hc
        exact hb (hc ▸ hx)
      · have hba : ¬(b = a) := fun hc => hb (hc ▸ h)
        simp only [List.filter, decide_eq_false hba]
        exact ih hnd' a h

theorem polysFor_nodup {pr : List (Nat × List Rot)} {R : Finset Rot}
    (h : (pr.map Prod.fst).Nodup) : (polysFor pr R).Nodup := by
  unfold polysFor
  have hsub : ((pr.filter (fun e => decide (e.2.toFinset = R))).map
      (fun e => e.1)).Sublist (pr.map Prod.fst) :=
    List.Sublist.map _ (List.filter_sublist pr)
  exact h.sublist hsub

theorem rotListOf_toFinset (queries : List Query) (p : Nat) :
    (rotListOf queries p).toFinset = rotSetOf queries p :=
  toFinset_firstDedup _

theorem stepSets_some {F : Type} [Field F] (d : Domain F) (pz : List F)
    (z' : F) (zm : List (Rot × F)) (acc : List (ISet F) × Option F)
    (e : Nat × List Rot) (sets : List (ISet F))
    (h : addToSets acc.1 e.1 e.2 = some sets) :
    stepSets d pz z' zm acc e = (sets, acc.2) := by
  unfold stepSets
  rw [h]

theorem stepSets_none {F : Type} [Field F] (d : Domain F) (pz : List F)
    (z' : F) (zm : List (Rot × F)) (acc : List (ISet F) × Option F)
    (e : Nat × List Rot) (h : addToSets acc.1 e.1 e.2 = none) :
    stepSets d pz z' zm acc e =
      (acc.1 ++ [{ ISet.new d e.2 pz z' zm acc.2 with polys := [e.1] }],
       if acc.2.isNone then
         some ({ ISet.new d e.2 pz z' zm acc.2 with polys := [e.1] } : ISet F).z_s
       else acc.2) := by
  unfold stepSets
  rw [h]

theorem withPolys_rotations {F : Type} (s : ISet F) (ps : List Nat) :
    ({ s with polys := ps } : ISet F).rotations = s.rotations := rfl

theorem withPolys_z_s {F : Type} (s : ISet F) (ps : List Nat) :
    ({ s with polys := ps } : ISet F).z_s = s.z_s := rfl

theorem withPolys_commitment_coeff {F : Type} (s : ISet F) (ps : List Nat) :
    ({ s with polys := ps } : ISet F).commitment_coeff = s.commitment_coeff := rfl

theorem withPolys_remainder_coeff {F : Type} (s : ISet F) (ps : List Nat) :
    ({ s with polys := ps } : ISet F).remainder_coeff = s.remainder_coeff := rfl

theorem withPolys_evaluation_coeffs {F : Type} (s : ISet F) (ps : List Nat) :
    ({ s with polys := ps } : ISet F).evaluation_coeffs = s.evaluation_coeffs := rfl

theorem withPolys_polys {F : Type} (s : ISet F) (ps : List Nat) :
    ({ s with polys := ps } : ISet F).polys = ps := rfl


/-- Invariant of the second fold of `intermediate_sets`: the accumulated sets
are indexed by the distinct rotation finsets in first-encounter order, their
`polys` and `rotations` fields follow the query entry order, the threaded
memo is the first set's `z_s`, and the coefficient fields have the SHPLONK
shape (first set: no commitment coefficient, remainder = inverse sum of
barycentric weights; later sets: commitment coefficient `z_s_1 / z_s`). -/
theorem buildSets_inv {F : Type} [Field F] (d : Domain F) (pz : List F)
    (z' : F) (zm : List (Rot × F)) :
    ∀ pr : List (Nat × List Rot), (pr.map Prod.fst).Nodup →
    ∃ Φ : Finset Rot → ISet F,
      (pr.foldl (stepSets d pz z' zm) ([], none)).1 = (rotFinsets pr).map Φ ∧
      (∀ R ∈ rotFinsets pr, (Φ R).polys = polysFor pr R ∧
        (Φ R).rotations = rotsFor pr R) ∧
      (rotFinsets pr = [] →
        (pr.foldl (stepSets d pz z' zm) ([], none)).2 = none) ∧
      (∀ R0 RS', rotFinsets pr = R0 :: RS' →
        (pr.foldl (stepSets d pz z' zm) ([], none)).2 = some ((Φ R0).z_s) ∧
        (Φ R0).commitment_coeff = none ∧
        (Φ R0).remainder_coeff = ((Φ R0).evaluation_coeffs.sum)⁻¹ ∧
        (∀ R ∈ RS', (Φ R).commitment_coeff =
            some ((Φ R0).z_s * ((Φ R).z_s)⁻¹) ∧
          (Φ R).remainder_coeff =
            (Φ R0).z_s * ((Φ R).z_s)⁻¹ * ((Φ R).evaluation_coeffs.sum)⁻¹)) := by
  intro pr
  induction pr using List.reverseRecOn with
  | nil =>
      intro _
      refine ⟨fun _ => ISet.new d [] pz z' zm none, ?_, ?_, ?_, ?_⟩
      · rfl
      · intro R hR; exact absurd hR (List.not_mem_nil R)
      · intro _; rfl
      · intro R0 RS' hcons
        exact absurd hcons (by simp [rotFinsets, firstDedup])
  | append_singleton pr e ih =>
      intro hkeys
      rw [List.map_append, List.nodup_append] at hkeys
      have hkeys' := hkeys.1
      have hfresh : e.1 ∉ pr.map Prod.fst := fun hc =>
        hkeys.2.2 hc (by simp)
      obtain ⟨Φ, h1, h2, h3, h4⟩ := ih hkeys'
      rw [List.foldl_append]
      simp only [List.foldl_cons, List.foldl_nil]
      generalize hacc : pr.foldl (stepSets d pz z' zm) ([], none) = acc at h1 h3 h4 ⊢
      have hrotfin : ∀ R ∈ rotFinsets pr, (Φ R).rotations.toFinset = R := by
        intro R hR
        rw [(h2 R hR).2]
        exact rotsFor_toFinset hR
      have haddm := addToSets_map e.1 e.2 (rotFinsets pr) Φ
        (nodup_firstDedup _) hrotfin
      rw [← h1] at haddm
      by_cases hmem : e.2.toFinset ∈ rotFinsets pr
      · rw [if_pos hmem] at haddm
        have hstep := stepSets_some d pz z' zm acc e _ haddm
        have hstep1 : (stepSets d pz z' zm acc e).1 =
            (rotFinsets pr).map (fun R =>
              if R = e.2.toFinset then polyUpd (Φ R) e.1 else Φ R) := by
          rw [hstep]
        have hstep2 : (stepSets d pz z' zm acc e).2 = acc.2 := by
          rw [hstep]
        have hRf : rotFinsets (pr ++ [e]) = rotFinsets pr := by
          rw [rotFinsets_append]
          unfold addNew
          rw [if_pos hmem]
        refine ⟨fun R => if R = e.2.toFinset then polyUpd (Φ R) e.1 else Φ R,
          ?_, ?_, ?_, ?_⟩
        · rw [hstep1, hRf]
        · rw [hRf]
          intro R hR
          beta_reduce
          by_cases hRe : R = e.2.toFinset
          · rw [if_pos hRe]
            have hnp : e.1 ∉ (Φ R).polys := by
              rw [(h2 R hR).1]
              intro hc
              exact hfresh (polysFor_subset_keys hc)
            refine ⟨?_, ?_⟩
            · rw [polyUpd_polys_of_not_mem _ _ hnp, (h2 R hR).1, polysFor_append,
                if_pos (show e.2.toFinset = R from hRe.symm)]
            · rw [polyUpd_rotations, (h2 R hR).2, rotsFor_append_old hR]
          · rw [if_neg hRe]
            refine ⟨?_, ?_⟩
            · rw [(h2 R hR).1, polysFor_append,
                if_neg (show ¬(e.2.toFinset = R) from fun hc => hRe hc.symm),
                List.append_nil]
            · rw [(h2 R hR).2, rotsFor_append_old hR]
        · rw [hRf]
          intro hnil
          rw [hnil] at hmem
          exact absurd hmem (List.not_mem_nil _)
        · rw [hRf]
          intro R0 RS' hcons
          obtain ⟨ha2, hcc0, hrc0, htail⟩ := h4 R0 RS' hcons
          have hupz : ∀ R : Finset Rot,
              ((if R = e.2.toFinset then polyUpd (Φ R) e.1 else Φ R) :
                ISet F).z_s = (Φ R).z_s ∧
              (if R = e.2.toFinset then polyUpd (Φ R) e.1 else
                Φ R).commitment_coeff = (Φ R).commitment_coeff ∧
              (if R = e.2.toFinset then polyUpd (Φ R) e.1 else
                Φ R).remainder_coeff = (Φ R).remainder_coeff ∧
              (if R = e.2.toFinset then polyUpd (Φ R) e.1 else
                Φ R).evaluation_coeffs = (Φ R).evaluation_coeffs := by
            intro R
            by_cases hRe : R = e.2.toFinset
            · rw [if_pos hRe]
              exact ⟨polyUpd_z_s _ _, polyUpd_commitment_coeff _ _,
                polyUpd_remainder_coeff _ _, polyUpd_evaluation_coeffs _ _⟩
            · rw [if_neg hRe]
              exact ⟨rfl, rfl, rfl, rfl⟩
          beta_reduce
          refine ⟨?_, ?_, ?_, ?_⟩
          · rw [hstep2, ha2, (hupz R0).1]
          · rw [(hupz R0).2.1, hcc0]
          · rw [(hupz R0).2.2.1, (hupz R0).2.2.2, hrc0]
          · intro R hR
            obtain ⟨hc1, hc2⟩ := htail R hR
            refine ⟨?_, ?_⟩
            · rw [(hupz R).2.1, hc1, (hupz R0).1, (hupz R).1]
            · rw [(hupz R).2.2.1, hc2, (hupz R0).1, (hupz R).1,
                (hupz R).2.2.2]
      · rw [if_neg hmem] at haddm
        have hstep := stepSets_none d pz z' zm acc e haddm
        have hstep1 : (stepSets d pz z' zm acc e).1 =
            acc.1 ++ [{ ISet.new d e.2 pz z' zm acc.2 with polys := [e.1] }] := by
          rw [hstep]
        have hstep2 : (stepSets d pz z' zm acc e).2 =
            if acc.2.isNone then
              some ({ ISet.new d e.2 pz z' zm acc.2 with
                polys := [e.1] } : ISet F).z_s
            else acc.2 := by
          rw [hstep]
        have hRf : rotFinsets (pr ++ [e]) =
            rotFinsets pr ++ [e.2.toFinset] := by
          rw [rotFinsets_append]
          unfold addNew
          rw [if_neg hmem]
        refine ⟨fun R => if R = e.2.toFinset then
            { ISet.new d e.2 pz z' zm acc.2 with polys := [e.1] } else Φ R,
          ?_, ?_, ?_, ?_⟩
        · rw [hstep1, hRf, List.map_append, h1]
          congr 1
          · apply List.map_congr_left
            intro R hR
            exact (if_neg (show ¬(R = e.2.toFinset) from
              fun hc => hmem (hc ▸ hR))).symm
          · simp only [List.map_cons, List.map_nil, if_true]
        · rw [hRf]
          intro R hR
          beta_reduce
          rcases List.mem_append.mp hR with hR | hR
          · have hRne : ¬(R = e.2.toFinset) := fun hc => hmem (hc ▸ hR)
            rw [if_neg hRne]
            refine ⟨?_, ?_⟩
            · rw [(h2 R hR).1, polysFor_append,
                if_neg (show ¬(e.2.toFinset = R) from fun hc => hRne hc.symm),
                List.append_nil]
            · rw [(h2 R hR).2, rotsFor_append_old hR]
          · have hRe : R = e.2.toFinset := by simpa using hR
            rw [if_pos hRe, hRe]
            refine ⟨?_, ?_⟩
            · rw [withPolys_polys, polysFor_append,
                if_pos (Eq.refl e.2.toFinset),
                polysFor_nil_of_not_mem hmem, List.nil_append]
            · rw [withPolys_rotations, ISet_new_rotations,
                rotsFor_append_new hmem]
        · rw [hRf]
          intro hnil
          exact absurd hnil (by simp)
        · rw [hRf]
          intro R0 RS'' hcons
          cases hRS : rotFinsets pr with
          | nil =>
              have hacc2 : acc.2 = none := h3 hRS
              rw [hRS, List.nil_append] at hcons
              injection hcons with hR0 hRS''
              beta_reduce
              refine ⟨?_, ?_, ?_, ?_⟩
              · rw [hstep2, hacc2,
                  if_pos (show (none : Option F).isNone = true from rfl),
                  if_pos (show R0 = e.2.toFinset from hR0.symm)]
              · rw [if_pos (show R0 = e.2.toFinset from hR0.symm), hacc2,
                  withPolys_commitment_coeff, ISet_new_cc_none]
              · rw [if_pos (show R0 = e.2.toFinset from hR0.symm), hacc2,
                  withPolys_remainder_coeff, withPolys_evaluation_coeffs,
                  ISet_new_rc_none]
              · intro R hR
                rw [← hRS''] at hR
                exact absurd hR (List.not_mem_nil R)
          | cons R1 RS1 =>
              obtain ⟨ha2, hcc0, hrc0, htail⟩ := h4 R1 RS1 hRS
              rw [hRS, List.cons_append] at hcons
              injection hcons with hR0 hRS''
              have hmemR1 : R1 ∈ rotFinsets pr := by
                rw [hRS]; exact List.mem_cons_self _ _
              have hR1ne : ¬(R1 = e.2.toFinset) := fun hc => hmem (hc ▸ hmemR1)
              beta_reduce
              have hz2 : (stepSets d pz z' zm acc e).2 = acc.2 := by
                rw [hstep2, ha2]
                simp
              refine ⟨?_, ?_, ?_, ?_⟩
              · rw [hz2, ha2, ← hR0, if_neg hR1ne]
              · rw [← hR0, if_neg hR1ne, hcc0]
              · rw [← hR0, if_neg hR1ne, hrc0]
              · intro R hR
                rw [← hRS''] at hR
                rw [← hR0, if_neg hR1ne]
                rcases List.mem_append.mp hR with hR | hR
                · have hRne : ¬(R = e.2.toFinset) := fun hc => hmem (by
                    rw [hRS]; exact List.mem_cons_of_mem _ (hc ▸ hR))
                  rw [if_neg hRne]
                  exact htail R hR
                · have hRe : R = e.2.toFinset := by simpa using hR
                  rw [if_pos hRe, withPolys_commitment_coeff,
                    withPolys_remainder_coeff, withPolys_z_s,
                    withPolys_evaluation_coeffs, ha2]
                  exact ⟨ISet_new_cc_some d e.2 pz z' zm ((Φ R1).z_s),
                    ISet_new_rc_some d e.2 pz z' zm ((Φ R1).z_s)⟩

/-- Keys of the grouped query map: the distinct polys in first-encounter
order. -/
theorem polyRotationsSpec_keys (queries : List Query) :
    (polyRotationsSpec queries).map Prod.fst =
      firstDedup (queries.map (fun q => q.poly)) := by
  unfold polyRotationsSpec
  rw [List.map_map]
  exact List.map_id _

theorem polyRotationsSpec_keys_nodup (queries : List Query) :
    ((polyRotationsSpec queries).map Prod.fst).Nodup := by
  rw [polyRotationsSpec_keys]
  exact nodup_firstDedup _

/-- Membership in the grouped query map. -/
theorem mem_polyRotationsSpec {queries : List Query} {e : Nat × List Rot} :
    e ∈ polyRotationsSpec queries ↔
      e.1 ∈ firstDedup (queries.map (fun q => q.poly)) ∧
        e.2 = rotListOf queries e.1 := by
  unfold polyRotationsSpec
  rw [List.mem_map]
  constructor
  · rintro ⟨p, hp, he⟩
    rw [← he]
    exact ⟨hp, rfl⟩
  · rintro ⟨hp, he⟩
    exact ⟨e.1, hp, by rw [← he]⟩

/-- Inversion of a successful `intermediateSetsOrd`. -/
theorem intermediateSetsOrd_some {F G : Type} [Field F] {order : List Rot}
    {P : Protocol F G} {z z' : F} {sets : List (ISet F)}
    (h : intermediateSetsOrd order P z z' = some sets) :
    ∃ maxLen, ((polyRotations P.queries).map (fun e => e.2.length)).max? =
        some maxLen ∧
      sets = ((polyRotations P.queries).foldl
        (stepSets P.domain (powersL z (max 2 (log2F (nextPow2 (maxLen - 1)) + 1)))
          z' (zMap order P.domain z z')) ([], none)).1 := by
  unfold intermediateSetsOrd at h
  cases hmax : ((polyRotations P.queries).map (fun e => e.2.length)).max? with
  | none =>
      rw [hmax] at h
      exact absurd h (by simp)
  | some m =>
      rw [hmax] at h
      exact ⟨m, rfl, (Option.some.inj h).symm⟩

/-- Rotation finsets of the grouped query map, directly over the queries. -/
theorem rotFinsets_spec (queries : List Query) :
    rotFinsets (polyRotationsSpec queries) =
      firstDedup (queries.map (fun q => rotSetOf queries q.poly)) := by
  unfold rotFinsets polyRotationsSpec
  rw [List.map_map]
  have hco : ((fun e : Nat × List Rot => e.2.toFinset) ∘
      fun p => (p, rotListOf queries p)) = fun p => rotSetOf queries p := by
    funext p
    exact rotListOf_toFinset queries p
  rw [hco, firstDedup_map_firstDedup, List.map_map]
  rfl

/-- A queried poly lies in the polys list indexed by `R` iff `R` is exactly
the poly's full rotation set. -/
theorem mem_polysFor_iff {queries : List Query} {q : Query} (hq : q ∈ queries)
    (R : Finset Rot) :
    q.poly ∈ polysFor (polyRotationsSpec queries) R ↔
      R = rotSetOf queries q.poly := by
  constructor
  · intro hp
    unfold polysFor at hp
    obtain ⟨e, he, hep⟩ := List.mem_map.mp hp
    obtain ⟨hepr, hefin⟩ := List.mem_filter.mp he
    obtain ⟨_, herot⟩ := mem_polyRotationsSpec.mp hepr
    have hRe : e.2.toFinset = R := by simpa using hefin
    rw [← hRe, herot, hep, rotListOf_toFinset]
  · intro hR
    unfold polysFor
    refine List.mem_map.mpr ⟨(q.poly, rotListOf queries q.poly), ?_, rfl⟩
    refine List.mem_filter.mpr ⟨?_, ?_⟩
    · exact mem_polyRotationsSpec.mpr
        ⟨(mem_firstDedup _ _).mpr (List.mem_map.mpr ⟨q, hq, rfl⟩), rfl⟩
    · simp only [decide_eq_true_eq]
      rw [rotListOf_toFinset, hR]

theorem rotSetOf_mem_rotFinsets {queries : List Query} {q : Query}
    (hq : q ∈ queries) :
    rotSetOf queries q.poly ∈ rotFinsets (polyRotationsSpec queries) :=
  mem_rotFinsets.mpr ⟨(q.poly, rotListOf queries q.poly),
    mem_polyRotationsSpec.mpr
      ⟨(mem_firstDedup _ _).mpr (List.mem_map.mpr ⟨q, hq, rfl⟩), rfl⟩,
    rotListOf_toFinset queries q.poly⟩

/-- Claim C6: for every protocol, `intermediate_sets` assigns every query in
`protocol.queries` to exactly one intermediate set whose rotations, viewed as
a set, equal that query's poly's full rotation set; the returned sets appear
in first-encounter order of the rotation sets, and within each set the polys
list is duplicate-free and in first-encounter order; no query is orphaned or
duplicated. -/
theorem C6_partition {F G : Type} [Field F] (P : Protocol F G) (z z' : F)
    (sets : List (ISet F)) (h : intermediateSets P z z' = some sets) :
    sets.map (fun s => s.rotations.toFinset) =
      firstDedup (P.queries.map (fun q => rotSetOf P.queries q.poly)) ∧
    (∀ s ∈ sets, s.polys.Nodup ∧
      s.polys = polysFor (polyRotations P.queries) s.rotations.toFinset) ∧
    (∀ q ∈ P.queries,
      (sets.filter (fun s => decide (q.poly ∈ s.polys))).map
        (fun s => s.rotations.toFinset) = [rotSetOf P.queries q.poly]) := by
  unfold intermediateSets at h
  obtain ⟨m, hmax, hsets⟩ := intermediateSetsOrd_some h
  rw [polyRotations_eq_spec] at hsets
  obtain ⟨Φ, h1, h2, h3, h4⟩ := buildSets_inv P.domain
    (powersL z (max 2 (log2F (nextPow2 (m - 1)) + 1))) z'
    (zMap (superset P.queries) P.domain z z')
    (polyRotationsSpec P.queries) (polyRotationsSpec_keys_nodup _)
  rw [h1] at hsets
  have hrotfin : ∀ R ∈ rotFinsets (polyRotationsSpec P.queries),
      (Φ R).rotations.toFinset = R := by
    intro R hR
    rw [(h2 R hR).2]
    exact rotsFor_toFinset hR
  refine ⟨?_, ?_, ?_⟩
  · rw [hsets, List.map_map, ← rotFinsets_spec]
    have hmapid : (rotFinsets (polyRotationsSpec P.queries)).map
        ((fun s : ISet F => s.rotations.toFinset) ∘ Φ) =
        (rotFinsets (polyRotationsSpec P.queries)).map id :=
      List.map_congr_left (fun R hR => hrotfin R hR)
    rw [hmapid, List.map_id]
  · intro s hs
    rw [hsets] at hs
    obtain ⟨R, hR, hsR⟩ := List.mem_map.mp hs
    have hfin : s.rotations.toFinset = R := by
      rw [← hsR]; exact hrotfin R hR
    rw [polyRotations_eq_spec]
    constructor
    · rw [← hsR, (h2 R hR).1]
      exact polysFor_nodup (polyRotationsSpec_keys_nodup _)
    · rw [hfin, ← hsR]
      exact (h2 R hR).1
  · intro q hq
    rw [hsets, filter_map_comm]
    beta_reduce
    have hcong : (rotFinsets (polyRotationsSpec P.queries)).filter
        (fun R => decide (q.poly ∈ (Φ R).polys)) =
        (rotFinsets (polyRotationsSpec P.queries)).filter
        (fun R => decide (R = rotSetOf P.queries q.poly)) := by
      apply List.filter_congr
      intro R hR
      rw [(h2 R hR).1]
      simp only [decide_eq_decide]
      exact mem_polysFor_iff hq R
    have hnd : (rotFinsets (polyRotationsSpec P.queries)).Nodup :=
      nodup_firstDedup _
    rw [hcong, filter_eq_singleton_of_nodup _ hnd _
      (rotSetOf_mem_rotFinsets hq)]
    simp only [List.map_cons, List.map_nil]
    rw [hrotfin _ (rotSetOf_mem_rotFinsets hq)]

/-- Claim C7: in every list of sets produced by `intermediate_sets`, the first
set has no commitment coefficient and a remainder coefficient equal to the
inverse of the sum of its barycentric weights; every later set's commitment
coefficient is the first set's `z_s` times the inverse of its own `z_s`, and
its remainder coefficient is that value times the inverse of the sum of its
own barycentric weights. -/
theorem C7_coefficients {F G : Type} [Field F] (P : Protocol F G) (z z' : F)
    (s0 : ISet F) (tl : List (ISet F))
    (h : intermediateSets P z z' = some (s0 :: tl)) :
    s0.commitment_coeff = none ∧
    s0.remainder_coeff = (s0.evaluation_coeffs.sum)⁻¹ ∧
    ∀ s ∈ tl, s.commitment_coeff = some (s0.z_s * (s.z_s)⁻¹) ∧
      s.remainder_coeff = s0.z_s * (s.z_s)⁻¹ * (s.evaluation_coeffs.sum)⁻¹ := by
  unfold intermediateSets at h
  obtain ⟨m, hmax, hsets⟩ := intermediateSetsOrd_some h
  rw [polyRotations_eq_spec] at hsets
  obtain ⟨Φ, h1, h2, h3, h4⟩ := buildSets_inv P.domain
    (powersL z (max 2 (log2F (nextPow2 (m - 1)) + 1))) z'
    (zMap (superset P.queries) P.domain z z')
    (polyRotationsSpec P.queries) (polyRotationsSpec_keys_nodup _)
  rw [h1] at hsets
  cases hRS : rotFinsets (polyRotationsSpec P.queries) with
  | nil =>
      rw [hRS] at hsets
      exact absurd hsets (by simp)
  | cons R0 RS' =>
      rw [hRS, List.map_cons] at hsets
      injection hsets with hs0 htl
      obtain ⟨_, hcc0, hrc0, htail⟩ := h4 R0 RS' hRS
      refine ⟨?_, ?_, ?_⟩
      · rw [hs0]; exact hcc0
      · rw [hs0]; exact hrc0
      · intro s hs
        rw [htl] at hs
        obtain ⟨R, hR, hsR⟩ := List.mem_map.mp hs
        rw [hs0, ← hsR]
        exact htail R hR

/-- First intermediate set of the example run at `z = 2`, `z' = 3`. -/
def w6a : ISet ℚ :=
  { polys := [0, 5], rotations := [0], z_s := 1, commitment_coeff := none,
    evaluation_coeffs := [1], remainder_coeff := 1 }

/-- Second intermediate set of the example run at `z = 2`, `z' = 3`. -/
def w6b : ISet ℚ :=
  { polys := [2], rotations := [0, 1], z_s := 5,
    commitment_coeff := some (1/5), evaluation_coeffs := [1/2, -1/10],
    remainder_coeff := 1/2 }

/-- Witness for C6 on the example protocol. -/
theorem C6_partition_witness :
    ([w6a, w6b] : List (ISet ℚ)).map (fun s => s.rotations.toFinset) =
      firstDedup (exP.queries.map (fun q => rotSetOf exP.queries q.poly)) ∧
    (∀ s ∈ [w6a, w6b], s.polys.Nodup ∧
      s.polys = polysFor (polyRotations exP.queries) s.rotations.toFinset) ∧
    (∀ q ∈ exP.queries,
      (([w6a, w6b] : List (ISet ℚ)).filter
        (fun s => decide (q.poly ∈ s.polys))).map
        (fun s => s.rotations.toFinset) = [rotSetOf exP.queries q.poly]) :=
  C6_partition exP 2 3 [w6a, w6b] (by with_unfolding_all rfl)

/-- Witness for C7 on the example protocol. -/
theorem C7_coefficients_witness :
    w6a.commitment_coeff = none ∧
    w6a.remainder_coeff = (w6a.evaluation_coeffs.sum)⁻¹ ∧
    ∀ s ∈ [w6b], s.commitment_coeff = some (w6a.z_s * (s.z_s)⁻¹) ∧
      s.remainder_coeff = w6a.z_s * (s.z_s)⁻¹ * (s.evaluation_coeffs.sum)⁻¹ :=
  C7_coefficients exP 2 3 w6a [w6b] (by with_unfolding_all rfl)
